import Mathlib

/-!
# Huffman compressor: priority queue, tree construction, code table, bit packing

A shallow embedding of `huffman_compressor.c` / `compression.h`, followed by the properties
of the specification that concern it.

* A `HuffmanNode*` is a value of `HuffmanNode`: either `null` or a struct with its four fields.
* `unsigned` values are natural numbers, reduced modulo `2 ^ 32` where the C code adds.
* The array behind a `PriorityQueue` is a map from index to pointer; `capacity` bounds the
  indices that were allocated.
* Executions that leave the defined behaviour of C stop with a `Fault`.
* `while` loops are structural recursions on a bound that the loop cannot exceed; the lemmas
  `sift_up_fuel`, `sift_down_fuel` and `merge_loop_fuel` show that the bound is never the
  reason for a loop to end.
* `sve2_frequency_count` and `decompress_file` are declared in `compression.h` and defined in
  no source file; the definitions that stand for them follow the specification and say so.
-/

namespace Huffman

/-- Ways in which an execution leaves the defined behaviour of C. -/
inductive Fault where
  /-- `extract_min` reads `nodes[0]` of a queue whose `size` is 0 (an uninitialised slot). -/
  | extract_empty
  /-- `insert_node` writes `nodes[size]` with `size >= capacity`. -/
  | insert_full
  /-- `generate_codes` writes `buffer[depth]` with `depth >= 256`. -/
  | buffer_overflow
  /-- `compress_file` reads `code[j]` through a `codes[...]` entry that is `NULL`. -/
  | null_code
  /-- `ftell` is called on a stream that `fclose` has already closed. -/
  | closed_stream
  deriving DecidableEq, Repr

/-- Modulus of the C type `unsigned` (32 bits). -/
def UNSIGNED_MOD : Nat := 2 ^ 32

/-- A `HuffmanNode*`: `null`, or a pointer to a struct `{data, frequency, left, right}`. -/
inductive HuffmanNode where
  | null : HuffmanNode
  | node (data : Nat) (frequency : Nat) (left right : HuffmanNode) : HuffmanNode
  deriving DecidableEq, Repr

namespace HuffmanNode

/-- Field read `p->frequency`. Queue entries are never `NULL` in the program; the value at
`null` is a placeholder. -/
def frequency : HuffmanNode → Nat
  | null => 0
  | node _ f _ _ => f

/-- Field read `p->data`. -/
def data : HuffmanNode → Nat
  | null => 0
  | node d _ _ _ => d

/-- Field read `p->left`. -/
def left : HuffmanNode → HuffmanNode
  | null => null
  | node _ _ l _ => l

/-- Field read `p->right`. -/
def right : HuffmanNode → HuffmanNode
  | null => null
  | node _ _ _ r => r

end HuffmanNode

open HuffmanNode

/-- The function `create_node`: a fresh node with both children `NULL`. -/
def create_node (data : Nat) (frequency : Nat) : HuffmanNode :=
  node data frequency null null

/-- The struct `PriorityQueue`; `nodes i` is the slot `nodes[i]`. -/
structure PriorityQueue where
  size : Nat
  capacity : Nat
  nodes : Nat → HuffmanNode

/-- The function `create_priority_queue`. `malloc` leaves the slots indeterminate; they are
shown as `null` here, and no operation below reads a slot at or beyond `size` without
reporting a fault. -/
def create_priority_queue (capacity : Nat) : PriorityQueue :=
  { size := 0, capacity := capacity, nodes := fun _ => null }

/-- Array write `nodes[i] = x`. -/
def store (nodes : Nat → HuffmanNode) (i : Nat) (x : HuffmanNode) : Nat → HuffmanNode :=
  fun j => if j = i then x else nodes j

/-- The `while` loop of `insert_node` followed by the final write `nodes[i] = node`.
The first argument bounds the number of iterations; `i` itself is such a bound because every
iteration replaces `i` by `(i - 1) / 2`. -/
def sift_up (node : HuffmanNode) : Nat → Nat → (Nat → HuffmanNode) → (Nat → HuffmanNode)
  | 0, i, nodes => store nodes i node
  | fuel + 1, i, nodes =>
    if i ≠ 0 ∧ node.frequency < (nodes ((i - 1) / 2)).frequency then
      sift_up node fuel ((i - 1) / 2) (store nodes i (nodes ((i - 1) / 2)))
    else
      store nodes i node

/-- The function `insert_node`. Writing slot `size` of a full queue is out of bounds. -/
def insert_node (queue : PriorityQueue) (node : HuffmanNode) : Except Fault PriorityQueue :=
  if queue.size < queue.capacity then
    .ok { queue with size := queue.size + 1,
                     nodes := sift_up node queue.size queue.size queue.nodes }
  else
    .error Fault.insert_full

/-- The child index chosen at one step of the sift-down loop of `extract_min`:
the left child `2 * i + 1`, or the right one when it exists and is strictly lighter. -/
def pick_child (size : Nat) (nodes : Nat → HuffmanNode) (i : Nat) : Nat :=
  if 2 * i + 1 + 1 < size ∧ (nodes (2 * i + 1 + 1)).frequency < (nodes (2 * i + 1)).frequency then
    2 * i + 1 + 1
  else
    2 * i + 1

/-- The `while` loop of `extract_min`. The first argument bounds the number of iterations;
`size` is such a bound because `i` grows in every iteration and stays below `size`. -/
def sift_down (size : Nat) : Nat → Nat → (Nat → HuffmanNode) → (Nat → HuffmanNode)
  | 0, _, nodes => nodes
  | fuel + 1, i, nodes =>
    if 2 * i + 1 < size then
      let child := pick_child size nodes i
      if (nodes i).frequency ≤ (nodes child).frequency then
        nodes
      else
        sift_down size fuel child (store (store nodes i (nodes child)) child (nodes i))
    else
      nodes

/-- The function `extract_min`. On an empty queue it reads an uninitialised slot. -/
def extract_min (queue : PriorityQueue) : Except Fault (HuffmanNode × PriorityQueue) :=
  if 0 < queue.size then
    let min := queue.nodes 0
    let size := queue.size - 1
    let nodes := store queue.nodes 0 (queue.nodes size)
    .ok (min, { queue with size := size, nodes := sift_down size size 0 nodes })
  else
    .error Fault.extract_empty

/-- The `for` loop of `build_huffman_tree`, run for the byte values `0 .. n - 1`. -/
def insert_leaves (frequencies : Nat → Nat) : Nat → PriorityQueue → Except Fault PriorityQueue
  | 0, queue => .ok queue
  | n + 1, queue =>
    match insert_leaves frequencies n queue with
    | .error e => .error e
    | .ok queue =>
      if frequencies n > 0 then insert_node queue (create_node n (frequencies n))
      else .ok queue

/-- One iteration of the merging loop of `build_huffman_tree` (its body, lines 78 to 85). -/
def merge_step (queue : PriorityQueue) : Except Fault PriorityQueue :=
  match extract_min queue with
  | .error e => .error e
  | .ok (left, queue) =>
    match extract_min queue with
    | .error e => .error e
    | .ok (right, queue) =>
      insert_node queue (node 0 ((left.frequency + right.frequency) % UNSIGNED_MOD) left right)

/-- The loop `while (queue->size > 1)` of `build_huffman_tree`. The first argument bounds the
number of iterations; the size of the queue is such a bound because every iteration that
returns lowers it by one. -/
def merge_loop : Nat → PriorityQueue → Except Fault PriorityQueue
  | 0, queue => .ok queue
  | fuel + 1, queue =>
    if queue.size > 1 then
      match merge_step queue with
      | .error e => .error e
      | .ok queue => merge_loop fuel queue
    else
      .ok queue

/-- The function `build_huffman_tree`, from the table `frequencies` as the frequency counter
has filled it (line 65) to the returned root. -/
def build_huffman_tree (frequencies : Nat → Nat) : Except Fault HuffmanNode :=
  match insert_leaves frequencies 256 (create_priority_queue 256) with
  | .error e => .error e
  | .ok queue =>
    match merge_loop queue.size queue with
    | .error e => .error e
    | .ok queue =>
      match extract_min queue with
      | .error e => .error e
      | .ok (root, _) => .ok root

/-- Size of the array `char buffer[256]` that `compress_file` hands to `generate_codes`. -/
def BUFFER_SIZE : Nat := 256

/-- The terminator of a C string. -/
def NUL : Char := Char.ofNat 0

/-- Array write `buffer[i] = c`. -/
def poke (buffer : Nat → Char) (i : Nat) (c : Char) : Nat → Char :=
  fun j => if j = i then c else buffer j

/-- The library call `strdup(buffer)`: the characters of `buffer` before its first terminator. -/
def strdup (buffer : Nat → Char) : List Char :=
  ((List.range BUFFER_SIZE).map buffer).takeWhile (fun c => c ≠ NUL)

/-- Array write `codes[i] = s`. -/
def assign (codes : Nat → Option (List Char)) (i : Nat) (s : List Char) :
    Nat → Option (List Char) :=
  fun j => if j = i then some s else codes j

/-- The function `generate_codes` as `compress_file` calls it, with its buffer of
`BUFFER_SIZE` characters. It returns the table `codes` and the scratch `buffer` as the call
leaves them. A code is a C string, held as the list of its characters; an entry `none` is a
`NULL` pointer. Every path through a non-null node starts with a write to `buffer[depth]`,
which is out of bounds of that buffer from `depth = 256` on. The source itself takes the
buffer from its caller; `generate_codes_in` is the same function for any buffer length. -/
def generate_codes : HuffmanNode → (Nat → Option (List Char)) → (Nat → Char) → Nat →
    Except Fault ((Nat → Option (List Char)) × (Nat → Char))
  | null, codes, buffer, _ => .ok (codes, buffer)
  | node data _ left right, codes, buffer, depth =>
    if depth < BUFFER_SIZE then
      if left = null ∧ right = null then
        let buffer := poke buffer depth NUL
        .ok (assign codes data (strdup buffer), buffer)
      else
        match generate_codes left codes (poke buffer depth '0') (depth + 1) with
        | .error e => .error e
        | .ok (codes, buffer) =>
          generate_codes right codes (poke buffer depth '1') (depth + 1)
    else
      .error Fault.buffer_overflow

/-- The local variables `current_byte`, `bit_count` of `compress_file` together with the
bytes passed to `fwrite` so far. -/
structure BitState where
  current_byte : Nat
  bit_count : Nat
  written : List Nat

/-- Body of the inner loop of `compress_file` for one character `code[j]`. The variable
`current_byte` is an `unsigned char`, hence the reduction modulo 256. Codes hold only the
characters `'0'` and `'1'`, for which `code[j] - '0'` is 0 or 1. -/
def put_bit (s : BitState) (c : Char) : BitState :=
  let current_byte := ((s.current_byte <<< 1) ||| (c.toNat - '0'.toNat)) % 256
  let bit_count := s.bit_count + 1
  if bit_count = 8 then
    { current_byte := 0, bit_count := 0, written := s.written ++ [current_byte] }
  else
    { current_byte := current_byte, bit_count := bit_count, written := s.written }

/-- The inner loop `for (j = 0; code[j]; j++)` of `compress_file`. -/
def put_code (s : BitState) (code : List Char) : BitState :=
  code.foldl put_bit s

/-- The outer loop `for (i = 0; i < file_size; i++)` of `compress_file`. -/
def put_bytes (codes : Nat → Option (List Char)) : List Nat → BitState → Except Fault BitState
  | [], s => .ok s
  | b :: rest, s =>
    match codes b with
    | none => .error Fault.null_code
    | some code => put_bytes codes rest (put_code s code)

/-- The block "write remaining bits" of `compress_file`; the result is the file content. -/
def flush (s : BitState) : List Nat :=
  if s.bit_count > 0 then
    s.written ++ [(s.current_byte <<< (8 - s.bit_count)) % 256]
  else
    s.written

/-- Modelled from the spec: the frequency counter `sve2_frequency_count`, which the header
declares and no source file defines. "Output: a 256-entry table of exact occurrence counts";
the entries have the C type `unsigned`. -/
def sve2_frequency_count (data : List Nat) : Nat → Nat :=
  fun i => data.count i % UNSIGNED_MOD

/-- A `FILE*` opened for writing: the bytes written so far and whether `fclose` has run. -/
structure FILE where
  content : List Nat
  closed : Bool

/-- The library call `ftell`. After `fclose` the stream may no longer be used. -/
def ftell (stream : FILE) : Except Fault Nat :=
  if stream.closed then .error Fault.closed_stream else .ok stream.content.length

/-- The struct `CompressionResult`, without its two `double` fields. -/
structure CompressionResult where
  original_size : Nat
  compressed_size : Nat
  deriving DecidableEq, Repr

/-- What one call of `compress_file` leaves behind. -/
structure Run where
  /-- The bytes of the output file once `fclose(output)` has run, or the fault that stopped
  the call before that point. -/
  output : Except Fault (List Nat)
  /-- The returned struct, or the fault that stopped the call. -/
  result : Except Fault CompressionResult

/-- Lines 135 to 138 of `compress_file` for a given frequency table: the tree is built and
`generate_codes` fills the table `codes`, which starts as all `NULL`. The initial content of
`buffer` is indeterminate in C and is shown as terminators. -/
def codes_of_histogram (frequencies : Nat → Nat) : Except Fault (Nat → Option (List Char)) :=
  match build_huffman_tree frequencies with
  | .error e => .error e
  | .ok root =>
    match generate_codes root (fun _ => none) (fun _ => NUL) 0 with
    | .error e => .error e
    | .ok (codes, _) => .ok codes

/-- The table `codes` of `compress_file` after line 138, for the input `file_data`. -/
def code_table (file_data : List Nat) : Except Fault (Nat → Option (List Char)) :=
  codes_of_histogram (sve2_frequency_count file_data)

/-- The entry `codes[b]` of `compress_file` after line 138; `none` is `NULL`. -/
def code_of (file_data : List Nat) (b : Nat) : Option (List Char) :=
  match code_table file_data with
  | .error _ => none
  | .ok codes => codes b

/-- The function `compress_file`, for an input file that exists and holds `file_data` and an
output path that can be opened. The fields `compression_ratio` and `processing_time` of the
result are a floating-point quotient and a clock difference and are left out. -/
def compress_file (file_data : List Nat) : Run :=
  match code_table file_data with
  | .error e => { output := .error e, result := .error e }
  | .ok codes =>
    match put_bytes codes file_data { current_byte := 0, bit_count := 0, written := [] } with
    | .error e => { output := .error e, result := .error e }
    | .ok s =>
      let output : FILE := { content := flush s, closed := true }
      { output := .ok output.content,
        result :=
          match ftell output with
          | .error e => .error e
          | .ok position =>
            .ok { original_size := file_data.length, compressed_size := position } }

/-! ## Specification vocabulary -/

/-- The min-heap invariant on the first `size` slots. -/
def heap_ok (size : Nat) (nodes : Nat → HuffmanNode) : Prop :=
  ∀ i, i < size → 1 ≤ i → (nodes ((i - 1) / 2)).frequency ≤ (nodes i).frequency

instance (size : Nat) (nodes : Nat → HuffmanNode) : Decidable (heap_ok size nodes) := by
  unfold heap_ok; infer_instance

/-- The nodes held in the first `size` slots, as a multiset. -/
def bag (nodes : Nat → HuffmanNode) (size : Nat) : Multiset HuffmanNode :=
  (Multiset.range size).map nodes

/-- Loop invariant of `sift_up`: the heap order holds on every edge that does not end at the
hole `i`, and the children of the hole are no lighter than `x` and than the parent of the hole. -/
def hole_up (N : Nat) (x : HuffmanNode) (f : Nat → HuffmanNode) (i : Nat) : Prop :=
  (∀ j, j < N → 1 ≤ j → j ≠ i → (f ((j - 1) / 2)).frequency ≤ (f j).frequency) ∧
  (∀ j, j < N → 1 ≤ j → (j - 1) / 2 = i → x.frequency ≤ (f j).frequency) ∧
  (∀ j, j < N → 1 ≤ j → (j - 1) / 2 = i → 1 ≤ i →
    (f ((i - 1) / 2)).frequency ≤ (f j).frequency)

/-- Loop invariant of `sift_down`: the heap order holds on every edge whose parent is not `i`,
and the children of `i` are no lighter than the parent of `i`. -/
def hole_down (n : Nat) (f : Nat → HuffmanNode) (i : Nat) : Prop :=
  (∀ j, j < n → 1 ≤ j → (j - 1) / 2 ≠ i → (f ((j - 1) / 2)).frequency ≤ (f j).frequency) ∧
  (∀ j, j < n → 1 ≤ j → (j - 1) / 2 = i → 1 ≤ i →
    (f ((i - 1) / 2)).frequency ≤ (f j).frequency)

/-- The min-heap invariant of a queue. -/
def PriorityQueue.is_heap (queue : PriorityQueue) : Prop := heap_ok queue.size queue.nodes

instance (queue : PriorityQueue) : Decidable queue.is_heap := by
  unfold PriorityQueue.is_heap; infer_instance

/-- The nodes a queue holds, as a multiset. -/
def PriorityQueue.items (queue : PriorityQueue) : Multiset HuffmanNode :=
  bag queue.nodes queue.size

/-- A queue of three nodes with weights 1, 2, 3 in a four-slot array. -/
def sample_queue : PriorityQueue :=
  { size := 3, capacity := 4, nodes := fun i => create_node i (i + 1) }

/-- The byte values with a nonzero count among `0 .. n - 1`, in increasing order. -/
def symbols (frequencies : Nat → Nat) (n : Nat) : List Nat :=
  (List.range n).filter (fun i => decide (0 < frequencies i))

/-- The internal node that `build_huffman_tree` creates for two extracted nodes. -/
def merge (left right : HuffmanNode) : HuffmanNode :=
  node 0 ((left.frequency + right.frequency) % UNSIGNED_MOD) left right

/-- The byte values at the leaves of a tree, in the order in which `generate_codes` visits
them. -/
def leaves : HuffmanNode → List Nat
  | null => []
  | node d _ l r => if l = null ∧ r = null then [d] else leaves l ++ leaves r

/-- Every node of the tree is a leaf or has two children. -/
def full : HuffmanNode → Prop
  | null => False
  | node _ _ l r => (l = null ∧ r = null) ∨ (full l ∧ full r)

/-- The number of levels of a tree: the largest number of nodes on a path from the root. -/
def levels : HuffmanNode → Nat
  | null => 0
  | node _ _ l r => max (levels l) (levels r) + 1

/-- The leaves of a tree with their root-to-leaf paths, `'0'` for left and `'1'` for right. -/
def paths : HuffmanNode → List (Nat × List Char)
  | null => []
  | node d _ l r =>
    if l = null ∧ r = null then [(d, [])]
    else (paths l).map (fun p => (p.1, '0' :: p.2)) ++ (paths r).map (fun p => (p.1, '1' :: p.2))

/-- The table obtained from `codes` by assigning, in order, to each listed byte value its
path behind the prefix `pre`. -/
def record (pre : List Char) (codes : Nat → Option (List Char)) (ps : List (Nat × List Char)) :
    Nat → Option (List Char) :=
  ps.foldl (fun c p => assign c p.1 (pre ++ p.2)) codes

/-- The bits that a code stands for: `'1'` is a set bit, `'0'` a clear one. -/
def code_bits (code : List Char) : List Bool := code.map (fun c => decide (c = '1'))

/-- The eight bits of a byte, most significant bit first. -/
def byte_bits (b : Nat) : List Bool := (List.range 8).map (fun k => b.testBit (7 - k))

/-- Modelled from the spec: the BitReader of section 4.5, which no source file defines. It
"yields bits in the order they were written", most significant bit of each byte first; the
caller takes as many bits as the logical content has. -/
def read_bits (bytes : List Nat) : List Bool := bytes.flatMap byte_bits

/-- Bit `k` of a byte stream: bit `7 - k mod 8` of byte `k / 8`. -/
def stream_bit (bytes : List Nat) (k : Nat) : Bool :=
  (bytes.getD (k / 8) 0).testBit (7 - k % 8)

/-- The number whose binary digits, most significant first, are `bs`. -/
def bits_value (bs : List Bool) : Nat :=
  bs.foldl (fun acc b => 2 * acc + (if b then 1 else 0)) 0

/-- The code bits of a whole buffer under a table: the codes of its bytes, concatenated. -/
def message (codes : Nat → Option (List Char)) (data : List Nat) : List Bool :=
  data.flatMap (fun b => code_bits ((codes b).getD []))

/-- The state of the bit writer of `compress_file` holds the bits `bs`: the bytes written
are the full groups of eight, and `current_byte` holds the `bit_count` bits that remain. -/
def packs (s : BitState) (bs : List Bool) : Prop :=
  ∃ pending, bs = read_bits s.written ++ pending ∧ pending.length = s.bit_count ∧
    s.bit_count < 8 ∧ s.current_byte = bits_value pending ∧ ∀ x ∈ s.written, x < 256

/-- The `n` low bits of `v`, most significant first. -/
def bits_msb (n v : Nat) : List Bool := (List.range n).map (fun k => v.testBit (n - 1 - k))

/-- The code bits of a buffer under the table that `compress_file` builds for it. -/
def payload (file_data : List Nat) : List Bool :=
  file_data.flatMap (fun b => code_bits ((code_of file_data b).getD []))

/-- Modelled from the spec: one symbol of Decompress (section 4.6), "walk from the root
following successive bits from a BitReader until a leaf is reached, emit that leaf's byte".
The result is the byte and the bits not yet consumed; `none` when the bits run out. -/
def walk : HuffmanNode → List Bool → Option (Nat × List Bool)
  | null, _ => none
  | node d _ l r, bits =>
    if l = null ∧ r = null then some (d, bits)
    else
      match bits with
      | [] => none
      | false :: rest => walk l rest
      | true :: rest => walk r rest

/-- Modelled from the spec: the symbol loop of Decompress (section 4.6), "restart from the
root, until exactly `original_size` bytes have been emitted". -/
def decode (root : HuffmanNode) : Nat → List Bool → Option (List Nat)
  | 0, _ => some []
  | n + 1, bits =>
    match walk root bits with
    | none => none
    | some (d, rest) =>
      match decode root n rest with
      | none => none
      | some out => some (d :: out)

/-- Modelled from the spec: Decompress of section 4.6, for the function `decompress_file`
that `compression.h` declares and no source file defines: "rebuild the tree from the
persisted histogram via TreeBuilder, then repeatedly walk from the root ...". The histogram
and the original size, which the spec reads from a header, are arguments. -/
def decompress (frequencies : Nat → Nat) (original_size : Nat) (bitstream : List Nat) :
    Option (List Nat) :=
  match build_huffman_tree frequencies with
  | .error _ => none
  | .ok root => decode root original_size (read_bits bitstream)

/-- Modelled from the spec: the container of sections 4.6 and 6, "format marker + version;
original length (fixed-width integer); pad-bit count (small integer, 0-7); 256 fixed-width
frequency counts in byte-value order; packed bitstream to end of file". The marker and the
byte encodings of the fields are not fixed by the spec and are left open. -/
structure Container where
  marker : List Nat
  original_length : List Nat
  pad_bits : Nat
  histogram : List (List Nat)
  bitstream : List Nat

/-- The bytes of a container, field after field. -/
def Container.bytes (c : Container) : List Nat :=
  c.marker ++ c.original_length ++ [c.pad_bits] ++ c.histogram.flatten ++ c.bitstream

/-- The histogram of a container has 256 entries, each of at least one byte. -/
def Container.well_formed (c : Container) : Prop :=
  c.histogram.length = 256 ∧ ∀ e ∈ c.histogram, e ≠ []

/-- The frequency table of a buffer with one byte 65 and one byte 66. -/
def sample_histogram : Nat → Nat := fun i => if i = 65 then 1 else if i = 66 then 1 else 0

/-- The leaves of a tree as pairs of byte value and weight, in the order in which
`generate_codes` visits them. -/
def leaf_nodes : HuffmanNode → List (Nat × Nat)
  | null => []
  | node d f l r => if l = null ∧ r = null then [(d, f)] else leaf_nodes l ++ leaf_nodes r

/-- All the nodes of a tree, each given as the subtree it roots. -/
def nodes_of : HuffmanNode → List HuffmanNode
  | null => []
  | node d f l r => node d f l r :: (nodes_of l ++ nodes_of r)

/-- The sum of the weights of the leaves of a tree. -/
def leaf_sum (t : HuffmanNode) : Nat := ((leaf_nodes t).map Prod.snd).sum

/-- Every internal node of the tree weighs the sum of its two children in 32-bit unsigned
arithmetic. -/
def weights_ok : HuffmanNode → Prop
  | null => True
  | node _ f l r =>
    (l = null ∧ r = null) ∨
      (f = (l.frequency + r.frequency) % UNSIGNED_MOD ∧ weights_ok l ∧ weights_ok r)

/-- The indices `depth` of the writes `buffer[depth] = ...` that `generate_codes` performs
on a tree when called with the given depth, in execution order. -/
def write_indices : HuffmanNode → Nat → List Nat
  | null, _ => []
  | node _ _ l r, depth =>
    if l = null ∧ r = null then [depth]
    else depth :: write_indices l (depth + 1) ++ depth :: write_indices r (depth + 1)

/-- The leaves of a tree as pairs of byte value and depth, for a root at the given depth. -/
def leaf_depths : HuffmanNode → Nat → List (Nat × Nat)
  | null, _ => []
  | node d _ l r, depth =>
    if l = null ∧ r = null then [(d, depth)]
    else leaf_depths l (depth + 1) ++ leaf_depths r (depth + 1)

/-- A tree of `n + 1` levels in which every internal node has a left child only, above a
single leaf for the byte value 7. -/
def left_chain : Nat → HuffmanNode
  | 0 => node 7 1 null null
  | n + 1 => node 0 1 (left_chain n) null

/-- The weights of the two children of every internal node of a tree. -/
def forks : HuffmanNode → List (Nat × Nat)
  | null => []
  | node _ _ l r =>
    if l = null ∧ r = null then []
    else (l.frequency, r.frequency) :: (forks l ++ forks r)

/-- Every internal node of the tree weighs the sum of its two children, without
wrap-around. -/
def exact : HuffmanNode → Prop
  | null => True
  | node _ f l r =>
    (l = null ∧ r = null) ∨ (f = l.frequency + r.frequency ∧ exact l ∧ exact r)

/-- The node reached from the root of a tree along a list of turns, `false` for left and
`true` for right; `null` when the turns leave the tree. -/
def descend : HuffmanNode → List Bool → HuffmanNode
  | t, [] => t
  | null, _ :: _ => null
  | node _ _ l _, false :: p => descend l p
  | node _ _ _ r, true :: p => descend r p

/-- The child of a node on the given side. -/
def child (b : Bool) (n : HuffmanNode) : HuffmanNode := if b then n.right else n.left

/-- A node that is present and is not a leaf. -/
def internal (n : HuffmanNode) : Prop := n ≠ null ∧ ¬ (n.left = null ∧ n.right = null)

/-- The weights of the two children of a node. -/
def fork_of (n : HuffmanNode) : Nat × Nat := (n.left.frequency, n.right.frequency)

/-- Two internal nodes are merged in the order of their children's weights: when a child of
the first is strictly lighter than a child of the second, the first node is strictly
lighter than the second. -/
def lighter_first (x y : Nat × Nat) : Prop :=
  (x.1 < y.1 ∨ x.1 < y.2 ∨ x.2 < y.1 ∨ x.2 < y.2) → x.1 + x.2 < y.1 + y.2

/-- Any two internal nodes of the forest whose fork weights are listed in `M` are merged in
the order of their children's weights. -/
def merge_ordered (M : Multiset (Nat × Nat)) : Prop :=
  ∀ x y, x ::ₘ y ::ₘ 0 ≤ M → lighter_first x y

/-- The fork weights of all the trees of a forest. -/
def forkbag (S : Multiset HuffmanNode) : Multiset (Nat × Nat) :=
  S.bind (fun T => ((forks T : List (Nat × Nat)) : Multiset (Nat × Nat)))

/-- Invariant of the forest held by the queue of `build_huffman_tree` when the total weight
stays below `2 ^ 32`: the trees are full with exact weights, internal nodes are merged in
the order of their children's weights, and no child of an internal node is heavier than a
root. -/
def greedy_forest (S : Multiset HuffmanNode) : Prop :=
  (∀ T ∈ S, full T ∧ exact T) ∧
  (S.map HuffmanNode.frequency).sum < UNSIGNED_MOD ∧
  merge_ordered (forkbag S) ∧
  (∀ x ∈ forkbag S, ∀ T ∈ S, x.1 ≤ T.frequency ∧ x.2 ≤ T.frequency)

/-- The library call `strdup(buffer)` for a buffer of `size` characters: the characters
before the first terminator. -/
def strdup_in (size : Nat) (buffer : Nat → Char) : List Char :=
  ((List.range size).map buffer).takeWhile (fun c => c ≠ NUL)

/-- The function `generate_codes` for a caller whose `buffer` has `size` characters. The
source takes the buffer as a pointer and has no bound of its own: a write `buffer[depth]`
is out of bounds when `depth` reaches the length that the caller allocated. With
`size = BUFFER_SIZE` this is `generate_codes`, the call made by `compress_file`. -/
def generate_codes_in (size : Nat) : HuffmanNode → (Nat → Option (List Char)) →
    (Nat → Char) → Nat → Except Fault ((Nat → Option (List Char)) × (Nat → Char))
  | null, codes, buffer, _ => .ok (codes, buffer)
  | node data _ left right, codes, buffer, depth =>
    if depth < size then
      if left = null ∧ right = null then
        let buffer := poke buffer depth NUL
        .ok (assign codes data (strdup_in size buffer), buffer)
      else
        match generate_codes_in size left codes (poke buffer depth '0') (depth + 1) with
        | .error e => .error e
        | .ok (codes, buffer) =>
          generate_codes_in size right codes (poke buffer depth '1') (depth + 1)
    else
      .error Fault.buffer_overflow

/-- No node of the tree has exactly one child. -/
def two_children (t : HuffmanNode) : Prop :=
  ∀ n ∈ nodes_of t, (n.left = null ∧ n.right = null) ∨ (n.left ≠ null ∧ n.right ≠ null)

instance (t : HuffmanNode) : Decidable (two_children t) := by
  unfold two_children; infer_instance

/-! ## Lemmas and theorems -/

/-! ### Array writes, multisets of slots, sift-up -/

theorem store_same (f : Nat → HuffmanNode) (i : Nat) (x : HuffmanNode) : store f i x i = x := by
  simp [store]

theorem store_other (f : Nat → HuffmanNode) (i j : Nat) (x : HuffmanNode) (h : j ≠ i) :
    store f i x j = f j := by
  simp [store, h]

theorem bag_succ (f : Nat → HuffmanNode) (n : Nat) : bag f (n + 1) = f n ::ₘ bag f n := by
  simp [bag, Multiset.range_succ]

theorem bag_store_ge (f : Nat → HuffmanNode) (n i : Nat) (x : HuffmanNode) (h : n ≤ i) :
    bag (store f i x) n = bag f n := by
  unfold bag
  apply Multiset.map_congr rfl
  intro j hj
  rw [Multiset.mem_range] at hj
  exact store_other f i j x (by omega)

theorem bag_store_lt (f : Nat → HuffmanNode) (x : HuffmanNode) :
    ∀ n i, i < n → f i ::ₘ bag (store f i x) n = x ::ₘ bag f n := by
  intro n
  induction n with
  | zero => intro i h; omega
  | succ n ih =>
    intro i h
    rw [bag_succ, bag_succ]
    by_cases hi : i = n
    · subst hi
      rw [store_same, bag_store_ge f i i x (le_refl _)]
      exact Multiset.cons_swap _ _ _
    · rw [store_other f i n x (fun h => hi h.symm), Multiset.cons_swap, ih i (by omega),
        Multiset.cons_swap]

/-- In a heap the node at slot 0 is no heavier than any other. -/
theorem heap_root_le (n : Nat) (f : Nat → HuffmanNode) (h : heap_ok n f) :
    ∀ j, j < n → (f 0).frequency ≤ (f j).frequency := by
  intro j
  induction j using Nat.strong_induction_on with
  | _ j ih =>
    intro hj
    by_cases h0 : j = 0
    · subst h0; exact le_refl _
    · have h1 := h j hj (by omega)
      have h2 := ih ((j - 1) / 2) (by omega) (by omega)
      exact le_trans h2 h1

theorem heap_of_hole_up (N : Nat) (x : HuffmanNode) (f : Nat → HuffmanNode) (i : Nat)
    (h : hole_up N x f i)
    (hx : i = 0 ∨ (f ((i - 1) / 2)).frequency ≤ x.frequency) :
    heap_ok N (store f i x) := by
  obtain ⟨ha, hb, _⟩ := h
  intro j hj h1
  by_cases hji : j = i
  · subst hji
    rw [store_same, store_other f j _ x (by omega)]
    rcases hx with hx | hx
    · omega
    · exact hx
  · rw [store_other f i j x hji]
    by_cases hp : (j - 1) / 2 = i
    · rw [hp, store_same]; exact hb j hj h1 hp
    · rw [store_other f i _ x hp]; exact ha j hj h1 hji

/-- The sift-up loop of `insert_node` turns its loop invariant into the heap invariant. -/
theorem sift_up_heap (N : Nat) (x : HuffmanNode) :
    ∀ fuel i f, i ≤ fuel → hole_up N x f i → heap_ok N (sift_up x fuel i f) := by
  intro fuel
  induction fuel with
  | zero =>
    intro i f hi h
    exact heap_of_hole_up N x f i h (Or.inl (by omega))
  | succ fuel ih =>
    intro i f hi h
    rw [sift_up]
    split
    · rename_i hc
      obtain ⟨hi0, hlt⟩ := hc
      obtain ⟨ha, hb, hc⟩ := h
      have hpi : (i - 1) / 2 ≠ i := by omega
      apply ih ((i - 1) / 2) _ (by omega)
      refine ⟨?_, ?_, ?_⟩
      · intro j hj h1 hjp
        by_cases hji : j = i
        · subst hji
          rw [store_same, store_other _ _ _ _ hpi]
        · rw [store_other _ _ j _ hji]
          by_cases hp : (j - 1) / 2 = i
          · rw [hp, store_same]
            exact hc j hj h1 hp (by omega)
          · rw [store_other _ _ _ _ hp]
            exact ha j hj h1 hji
      · intro j hj h1 hp
        by_cases hji : j = i
        · subst hji
          rw [store_same]; exact le_of_lt hlt
        · rw [store_other _ _ j _ hji]
          have := ha j hj h1 hji
          rw [hp] at this
          omega
      · intro j hj h1 hp hp1
        rw [store_other _ _ (((i - 1) / 2 - 1) / 2) _ (by omega)]
        by_cases hji : j = i
        · subst hji
          rw [store_same]
          by_cases hlt' : (j - 1) / 2 < N
          · exact ha _ hlt' hp1 hpi
          · omega
        · rw [store_other _ _ j _ hji]
          have h2 := ha j hj h1 hji
          rw [hp] at h2
          have h3 := ha ((i - 1) / 2) (by omega) hp1 hpi
          exact le_trans h3 h2
    · rename_i hc
      apply heap_of_hole_up N x f i h
      by_cases hi0 : i = 0
      · exact Or.inl hi0
      · right
        by_contra hcon
        exact hc ⟨hi0, by omega⟩

theorem sift_up_bag (x : HuffmanNode) (N : Nat) :
    ∀ fuel i f, i < N → f i ::ₘ bag (sift_up x fuel i f) N = x ::ₘ bag f N := by
  intro fuel
  induction fuel with
  | zero =>
    intro i f hi
    exact bag_store_lt f x N i hi
  | succ fuel ih =>
    intro i f hi
    rw [sift_up]
    split
    · rename_i hc
      have hpi : (i - 1) / 2 ≠ i := by omega
      have h1 := ih ((i - 1) / 2) (store f i (f ((i - 1) / 2))) (by omega)
      rw [store_other _ _ _ _ hpi] at h1
      have h2 := bag_store_lt f (f ((i - 1) / 2)) N i hi
      have h3 : f ((i - 1) / 2) ::ₘ (f i ::ₘ bag (sift_up x fuel ((i - 1) / 2)
          (store f i (f ((i - 1) / 2)))) N) = f ((i - 1) / 2) ::ₘ (x ::ₘ bag f N) := by
        rw [Multiset.cons_swap, h1, Multiset.cons_swap, h2, Multiset.cons_swap]
      exact (Multiset.cons_inj_right _).1 h3
    · exact bag_store_lt f x N i hi

/-! ### Sift-down -/

theorem pick_child_cases (n : Nat) (f : Nat → HuffmanNode) (i : Nat) :
    (pick_child n f i = 2 * i + 1 ∧
      (2 * i + 2 < n → (f (2 * i + 1)).frequency ≤ (f (2 * i + 2)).frequency)) ∨
    (pick_child n f i = 2 * i + 2 ∧ 2 * i + 2 < n ∧
      (f (2 * i + 2)).frequency < (f (2 * i + 1)).frequency) := by
  unfold pick_child
  simp only [show 2 * i + 1 + 1 = 2 * i + 2 from rfl]
  split
  · rename_i h; right; exact ⟨rfl, h.1, h.2⟩
  · rename_i h; left
    refine ⟨rfl, ?_⟩
    intro h2
    by_contra hc
    exact h ⟨h2, by omega⟩

theorem pick_child_least (n : Nat) (f : Nat → HuffmanNode) (i : Nat) (h : 2 * i + 1 < n) :
    pick_child n f i < n ∧ (pick_child n f i - 1) / 2 = i ∧ i < pick_child n f i ∧
    ∀ j, j < n → 1 ≤ j → (j - 1) / 2 = i →
      (f (pick_child n f i)).frequency ≤ (f j).frequency := by
  rcases pick_child_cases n f i with ⟨hc, hle⟩ | ⟨hc, hlt, hle⟩
  · rw [hc]
    refine ⟨h, by omega, by omega, ?_⟩
    intro j hj h1 hp
    have : j = 2 * i + 1 ∨ j = 2 * i + 2 := by omega
    rcases this with hj1 | hj2
    · rw [hj1]
    · rw [hj2]; exact hle (by omega)
  · rw [hc]
    refine ⟨hlt, by omega, by omega, ?_⟩
    intro j hj h1 hp
    have : j = 2 * i + 1 ∨ j = 2 * i + 2 := by omega
    rcases this with hj1 | hj2
    · rw [hj1]; exact le_of_lt hle
    · rw [hj2]

theorem heap_of_hole_down (n : Nat) (f : Nat → HuffmanNode) (i : Nat) (h : hole_down n f i)
    (hc : ∀ j, j < n → 1 ≤ j → (j - 1) / 2 = i → (f i).frequency ≤ (f j).frequency) :
    heap_ok n f := by
  intro j hj h1
  by_cases hp : (j - 1) / 2 = i
  · rw [hp]; exact hc j hj h1 hp
  · exact h.1 j hj h1 hp

/-- The sift-down loop of `extract_min` turns its loop invariant into the heap invariant. -/
theorem sift_down_heap (n : Nat) :
    ∀ fuel i f, hole_down n f i → n ≤ fuel + i → heap_ok n (sift_down n fuel i f) := by
  intro fuel
  induction fuel with
  | zero =>
    intro i f h hn
    rw [sift_down]
    apply heap_of_hole_down n f i h
    intro j hj h1 hp
    omega
  | succ fuel ih =>
    intro i f h hn
    rw [sift_down]
    split
    · rename_i hlt
      obtain ⟨hcn, hcp, hci, hcl⟩ := pick_child_least n f i hlt
      simp only []
      generalize pick_child n f i = c at hcn hcp hci hcl
      split
      · rename_i hle
        apply heap_of_hole_down n f i h
        intro j hj h1 hp
        exact le_trans hle (hcl j hj h1 hp)
      · rename_i hnle
        have hic : i ≠ c := by omega
        apply ih c _ _ (by omega)
        obtain ⟨ha, hb⟩ := h
        refine ⟨?_, ?_⟩
        · intro j hj h1 hp
          by_cases hjc : j = c
          · subst hjc
            rw [store_same, hcp, store_other _ _ i _ hic, store_same]
            omega
          · rw [store_other _ _ j _ hjc]
            by_cases hji : j = i
            · subst hji
              rw [store_same, store_other _ _ _ _ hp, store_other _ _ _ _ (by omega)]
              exact hb c hcn (by omega) hcp h1
            · rw [store_other _ _ j _ hji, store_other _ _ _ _ hp]
              by_cases hpi : (j - 1) / 2 = i
              · rw [hpi, store_same]
                exact hcl j hj h1 hpi
              · rw [store_other _ _ _ _ hpi]
                exact ha j hj h1 hpi
        · intro j hj h1 hp hc1
          rw [hcp, store_other _ _ i _ hic, store_same, store_other _ _ j _ (by omega),
            store_other _ _ j _ (by omega)]
          have := ha j hj h1 (by omega)
          rw [hp] at this
          exact this
    · rename_i hge
      apply heap_of_hole_down n f i h
      intro j hj h1 hp
      omega

theorem bag_swap (f : Nat → HuffmanNode) (n i c : Nat) (hi : i < n) (hc : c < n)
    (hic : i ≠ c) : bag (store (store f i (f c)) c (f i)) n = bag f n := by
  have h1 := bag_store_lt f (f c) n i hi
  have h2 := bag_store_lt (store f i (f c)) (f i) n c hc
  rw [store_other _ _ c _ (fun h => hic h.symm)] at h2
  have h3 : f i ::ₘ (f c ::ₘ bag (store (store f i (f c)) c (f i)) n) =
      f i ::ₘ (f c ::ₘ bag f n) := by
    rw [h2, Multiset.cons_swap, h1]
  exact (Multiset.cons_inj_right _).1 ((Multiset.cons_inj_right _).1 h3)

theorem sift_down_bag (n : Nat) :
    ∀ fuel i f, i < n → bag (sift_down n fuel i f) n = bag f n := by
  intro fuel
  induction fuel with
  | zero => intro i f _; rfl
  | succ fuel ih =>
    intro i f hi
    rw [sift_down]
    split
    · rename_i hlt
      obtain ⟨hcn, hcp, hci, hcl⟩ := pick_child_least n f i hlt
      simp only []
      generalize pick_child n f i = c at hcn hcp hci hcl
      split
      · rfl
      · rw [ih c _ hcn]
        exact bag_swap f n i c hi hcn (by omega)
    · rfl

/-! ### Queue operations (C9, C10) -/

theorem bag_zero (f : Nat → HuffmanNode) : bag f 0 = 0 := by
  simp [bag]

theorem mem_bag (f : Nat → HuffmanNode) (n : Nat) (x : HuffmanNode) :
    x ∈ bag f n ↔ ∃ j, j < n ∧ f j = x := by
  simp [bag]

/-- Effect of `insert_node` on a queue with a free slot: one more node, the same capacity, the new node added to the multiset, the heap invariant kept. -/
theorem insert_node_spec (q : PriorityQueue) (x : HuffmanNode) (h : q.size < q.capacity) :
    ∃ q', insert_node q x = .ok q' ∧ q'.size = q.size + 1 ∧ q'.capacity = q.capacity ∧
      q'.items = x ::ₘ q.items ∧ (q.is_heap → q'.is_heap) := by
  refine ⟨{ q with size := q.size + 1, nodes := sift_up x q.size q.size q.nodes }, ?_, rfl, rfl,
    ?_, ?_⟩
  · simp [insert_node, h]
  · have h1 := sift_up_bag x (q.size + 1) q.size q.size q.nodes (by omega)
    rw [bag_succ q.nodes q.size, Multiset.cons_swap] at h1
    exact (Multiset.cons_inj_right _).1 h1
  · intro hh
    apply sift_up_heap (q.size + 1) x q.size q.size q.nodes (le_refl _)
    refine ⟨?_, ?_, ?_⟩
    · intro j hj h1 hne
      exact hh j (by omega) h1
    · intro j hj h1 hp; omega
    · intro j hj h1 hp; omega

/-- Effect of `extract_min` on a non-empty queue: slot 0 is returned, one node less, the heap invariant kept. -/
theorem extract_min_spec (q : PriorityQueue) (h : 0 < q.size) :
    ∃ q', extract_min q = .ok (q.nodes 0, q') ∧ q'.size + 1 = q.size ∧
      q'.capacity = q.capacity ∧ q.items = q.nodes 0 ::ₘ q'.items ∧
      (q.is_heap → q'.is_heap) := by
  refine ⟨{ q with size := q.size - 1,
                   nodes := sift_down (q.size - 1) (q.size - 1) 0
                     (store q.nodes 0 (q.nodes (q.size - 1))) }, ?_, ?_, rfl, ?_, ?_⟩
  · simp [extract_min, h]
  · show q.size - 1 + 1 = q.size
    omega
  · show bag q.nodes q.size = q.nodes 0 ::ₘ bag _ (q.size - 1)
    obtain ⟨m, hm⟩ : ∃ m, q.size = m + 1 := ⟨q.size - 1, by omega⟩
    rw [hm]
    simp only [Nat.add_sub_cancel]
    by_cases hm0 : m = 0
    · subst hm0
      rw [bag_succ, bag_zero, bag_zero]
    · rw [sift_down_bag m m 0 _ (by omega), bag_succ,
        bag_store_lt q.nodes (q.nodes m) m 0 (by omega)]
  · intro hh
    apply sift_down_heap (q.size - 1) (q.size - 1) 0 _ _ (by omega)
    refine ⟨?_, ?_⟩
    · intro j hj h1 hp
      rw [store_other _ _ _ _ hp, store_other _ _ j _ (by omega)]
      exact hh j (by omega) h1
    · intro j hj h1 hp h0
      omega

/-- C9. On a non-empty queue that satisfies the min-heap invariant, `extract_min` returns a
node that is no heavier than any node of the queue, lowers `size` by exactly one, and leaves
in the queue the other nodes: the multiset of the remaining nodes is the original multiset
with the returned node removed once. -/
theorem extract_min_returns_minimum (q : PriorityQueue) (hne : 0 < q.size) (hheap : q.is_heap) :
    ∃ min q', extract_min q = .ok (min, q') ∧
      (∀ x ∈ q.items, min.frequency ≤ x.frequency) ∧
      q'.size + 1 = q.size ∧
      min ∈ q.items ∧ q'.items = q.items.erase min := by
  obtain ⟨q', he, hs, _, hi, _⟩ := extract_min_spec q hne
  refine ⟨q.nodes 0, q', he, ?_, hs, ?_, ?_⟩
  · intro x hx
    obtain ⟨j, hj, rfl⟩ := (mem_bag _ _ _).1 hx
    exact heap_root_le q.size q.nodes hheap j hj
  · exact (mem_bag _ _ _).2 ⟨0, hne, rfl⟩
  · rw [hi, Multiset.erase_cons_head]

/-- C10. The min-heap invariant is preserved by every queue operation: it holds for the
empty queue of `create_priority_queue`, `insert_node` returns a queue that satisfies it when
`size < capacity`, and `extract_min` returns one that satisfies it on a non-empty queue. -/
theorem heap_invariant_preserved :
    (∀ capacity, (create_priority_queue capacity).is_heap) ∧
    (∀ q x, q.is_heap → q.size < q.capacity →
      ∃ q', insert_node q x = .ok q' ∧ q'.is_heap) ∧
    (∀ q, q.is_heap → 0 < q.size →
      ∃ min q', extract_min q = .ok (min, q') ∧ q'.is_heap) := by
  refine ⟨?_, ?_, ?_⟩
  · intro capacity i hi
    exact absurd hi (Nat.not_lt_zero i)
  · intro q x hh hc
    obtain ⟨q', he, _, _, _, hp⟩ := insert_node_spec q x hc
    exact ⟨q', he, hp hh⟩
  · intro q hh hs
    obtain ⟨q', he, _, _, _, hp⟩ := extract_min_spec q hs
    exact ⟨q.nodes 0, q', he, hp hh⟩

/-- C9 at the sample queue of three nodes. -/
theorem extract_min_returns_minimum_witness :
    0 < sample_queue.size ∧ sample_queue.is_heap ∧
    ∃ min q', extract_min sample_queue = .ok (min, q') ∧
      (∀ x ∈ sample_queue.items, min.frequency ≤ x.frequency) ∧
      q'.size + 1 = sample_queue.size ∧
      min ∈ sample_queue.items ∧ q'.items = sample_queue.items.erase min :=
  ⟨by decide, by decide, extract_min_returns_minimum sample_queue (by decide) (by decide)⟩

/-- C10 at the sample queue: one insertion and one extraction. -/
theorem heap_invariant_preserved_witness :
    (sample_queue.is_heap ∧ sample_queue.size < sample_queue.capacity ∧
      ∃ q', insert_node sample_queue (create_node 9 0) = .ok q' ∧ q'.is_heap) ∧
    (0 < sample_queue.size ∧
      ∃ min q', extract_min sample_queue = .ok (min, q') ∧ q'.is_heap) :=
  ⟨⟨by decide, by decide,
      heap_invariant_preserved.2.1 sample_queue (create_node 9 0) (by decide) (by decide)⟩,
    by decide, heap_invariant_preserved.2.2 sample_queue (by decide) (by decide)⟩

/-! ### Tree construction -/

theorem symbols_succ (frequencies : Nat → Nat) (n : Nat) :
    symbols frequencies (n + 1) =
      if 0 < frequencies n then symbols frequencies n ++ [n] else symbols frequencies n := by
  unfold symbols
  rw [List.range_succ, List.filter_append]
  by_cases h : 0 < frequencies n <;> simp [List.filter, h]

theorem symbols_length_le (frequencies : Nat → Nat) (n : Nat) :
    (symbols frequencies n).length ≤ n := by
  unfold symbols
  calc _ ≤ (List.range n).length := List.length_filter_le _ _
    _ = n := List.length_range n

theorem mem_symbols (frequencies : Nat → Nat) (n i : Nat) :
    i ∈ symbols frequencies n ↔ i < n ∧ 0 < frequencies i := by
  simp [symbols]

theorem symbols_nodup (frequencies : Nat → Nat) (n : Nat) : (symbols frequencies n).Nodup :=
  (List.nodup_range n).filter _

theorem insert_leaves_spec (frequencies : Nat → Nat) (q0 : PriorityQueue) :
    ∀ n, q0.size + n ≤ q0.capacity →
      ∃ q, insert_leaves frequencies n q0 = .ok q ∧ q.capacity = q0.capacity ∧
        q.size = q0.size + (symbols frequencies n).length ∧
        q.items = q0.items +
          ((symbols frequencies n).map (fun i => create_node i (frequencies i)) :
            Multiset HuffmanNode) ∧
        (q0.is_heap → q.is_heap) := by
  intro n
  induction n with
  | zero =>
    intro _
    exact ⟨q0, rfl, rfl, by simp [symbols], by simp [symbols], id⟩
  | succ n ih =>
    intro hcap
    obtain ⟨q, he, hc, hs, hi, hh⟩ := ih (by omega)
    have hle := symbols_length_le frequencies n
    rw [insert_leaves, he]
    simp only []
    rw [symbols_succ]
    by_cases hf : 0 < frequencies n
    · obtain ⟨q', he', hs', hc', hi', hh'⟩ :=
        insert_node_spec q (create_node n (frequencies n)) (by omega)
      refine ⟨q', ?_, by omega, ?_, ?_, fun h => hh' (hh h)⟩
      · simp [hf, he']
      · simp [hf, hs', hs]; omega
      · rw [hi', hi]
        simp only [hf, if_true, List.map_append, List.map_cons, List.map_nil]
        rw [← Multiset.coe_add, ← Multiset.singleton_add]
        simp only [Multiset.coe_singleton]
        rw [add_comm, add_assoc]
    · refine ⟨q, ?_, hc, ?_, ?_, hh⟩
      · simp [hf]
      · simp [hf, hs]
      · simp [hf, hi]

theorem merge_step_spec (q : PriorityQueue) (h2 : 2 ≤ q.size) (hc : q.size ≤ q.capacity) :
    ∃ l r rest q', merge_step q = .ok q' ∧ q'.size + 1 = q.size ∧ q'.capacity = q.capacity ∧
      q.items = l ::ₘ r ::ₘ rest ∧ q'.items = merge l r ::ₘ rest ∧
      (q.is_heap → q'.is_heap) := by
  obtain ⟨q1, he1, hs1, hc1, hi1, hh1⟩ := extract_min_spec q (by omega)
  obtain ⟨q2, he2, hs2, hc2, hi2, hh2⟩ := extract_min_spec q1 (by omega)
  obtain ⟨q3, he3, hs3, hc3, hi3, hh3⟩ :=
    insert_node_spec q2 (merge (q.nodes 0) (q1.nodes 0)) (by omega)
  refine ⟨q.nodes 0, q1.nodes 0, q2.items, q3, ?_, by omega, by omega, ?_, hi3,
    fun h => hh3 (hh2 (hh1 h))⟩
  · rw [merge_step, he1]
    simp only []
    rw [he2]
    exact he3
  · rw [hi1, hi2]

/-- The merging loop ends with one node; a property closed under merging holds for it, and an additive measure keeps its total. -/
theorem merge_loop_spec {A : Type} [AddCommMonoid A] (P : HuffmanNode → Prop)
    (μ : HuffmanNode → A) (hP : ∀ l r, P l → P r → P (merge l r))
    (hμ : ∀ l r, P l → P r → μ (merge l r) = μ l + μ r) :
    ∀ fuel q, q.size ≤ fuel → 1 ≤ q.size → q.size ≤ q.capacity → (∀ t ∈ q.items, P t) →
      ∃ q', merge_loop fuel q = .ok q' ∧ q'.size = 1 ∧ (∀ t ∈ q'.items, P t) ∧
        (q'.items.map μ).sum = (q.items.map μ).sum ∧ (q.is_heap → q'.is_heap) := by
  intro fuel
  induction fuel with
  | zero => intro q h0 h1; omega
  | succ fuel ih =>
    intro q hf h1 hc hall
    rw [merge_loop]
    by_cases hs : q.size > 1
    · obtain ⟨l, r, rest, q', he, hs', hc', hi, hi', hh⟩ := merge_step_spec q hs hc
      have hall' : ∀ t ∈ q'.items, P t := by
        intro t ht
        rw [hi', Multiset.mem_cons] at ht
        rcases ht with rfl | ht
        · apply hP
          · exact hall l (by rw [hi]; simp)
          · exact hall r (by rw [hi]; simp)
        · exact hall t (by rw [hi]; simp [ht])
      obtain ⟨q'', he'', hs'', hall'', hsum, hh''⟩ :=
        ih q' (by omega) (by omega) (by omega) hall'
      refine ⟨q'', ?_, hs'', hall'', ?_, fun h => hh'' (hh h)⟩
      · simp [hs, he, he'']
      · have hl : P l := hall l (by rw [hi]; simp)
        have hr : P r := hall r (by rw [hi]; simp)
        rw [hsum, hi', hi]
        simp [hμ l r hl hr, add_assoc]
    · exact ⟨q, by simp [hs], by omega, hall, rfl, id⟩

/-- For a table with a nonzero entry `build_huffman_tree` returns a root; a property closed under merging that holds for the leaves holds for the root, and an additive measure of the root is the total over the leaves. -/
theorem build_huffman_tree_spec {A : Type} [AddCommMonoid A] (P : HuffmanNode → Prop)
    (μ : HuffmanNode → A) (hP : ∀ l r, P l → P r → P (merge l r))
    (hμ : ∀ l r, P l → P r → μ (merge l r) = μ l + μ r) (frequencies : Nat → Nat)
    (hleaf : ∀ i, i < 256 → 0 < frequencies i → P (create_node i (frequencies i)))
    (hne : ∃ i, i < 256 ∧ 0 < frequencies i) :
    ∃ root, build_huffman_tree frequencies = .ok root ∧ P root ∧
      μ root = ((symbols frequencies 256).map
        (fun i => μ (create_node i (frequencies i)))).sum := by
  obtain ⟨q, he, hc, hs, hi, _⟩ :=
    insert_leaves_spec frequencies (create_priority_queue 256) 256 (by decide)
  have hlen := symbols_length_le frequencies 256
  have hpos : 0 < (symbols frequencies 256).length := by
    obtain ⟨i, hi1, hi2⟩ := hne
    exact List.length_pos_of_mem ((mem_symbols frequencies 256 i).2 ⟨hi1, hi2⟩)
  have hs' : q.size = (symbols frequencies 256).length := by
    rw [hs]; simp [create_priority_queue]
  have hi' : q.items = ((symbols frequencies 256).map
      (fun i => create_node i (frequencies i)) : Multiset HuffmanNode) := by
    rw [hi]; simp [create_priority_queue, PriorityQueue.items, bag_zero]
  have hc' : q.capacity = 256 := by rw [hc]; rfl
  have hall : ∀ t ∈ q.items, P t := by
    intro t ht
    rw [hi'] at ht
    simp only [Multiset.mem_coe, List.mem_map] at ht
    obtain ⟨i, hi1, rfl⟩ := ht
    rw [mem_symbols] at hi1
    exact hleaf i hi1.1 hi1.2
  obtain ⟨q', he', hs1, hall', hsum, _⟩ :=
    merge_loop_spec P μ hP hμ q.size q (le_refl _) (by omega) (by omega) hall
  obtain ⟨q'', he'', hs'', _, hi'', _⟩ := extract_min_spec q' (by omega)
  have h0 : q''.items = 0 := by
    have : q''.size = 0 := by omega
    simp [PriorityQueue.items, this, bag_zero]
  refine ⟨q'.nodes 0, ?_, ?_, ?_⟩
  · unfold build_huffman_tree
    rw [he]
    simp only []
    rw [he']
    simp only []
    rw [he'']
  · apply hall'
    rw [hi'']; simp
  · have : (q'.items.map μ).sum = μ (q'.nodes 0) := by
      rw [hi'', h0]; simp
    rw [← this, hsum, hi']
    simp only [Multiset.map_coe, Multiset.sum_coe, List.map_map]
    rfl

/-- For the all-zero table `build_huffman_tree` reaches its last `extract_min` with an empty queue. -/
theorem build_huffman_tree_empty (frequencies : Nat → Nat)
    (hz : ∀ i, i < 256 → frequencies i = 0) :
    build_huffman_tree frequencies = .error Fault.extract_empty := by
  obtain ⟨q, he, hc, hs, hi, _⟩ :=
    insert_leaves_spec frequencies (create_priority_queue 256) 256 (by decide)
  have hnil : symbols frequencies 256 = [] := by
    apply List.eq_nil_iff_forall_not_mem.2
    intro i hi
    rw [mem_symbols] at hi
    have := hz i hi.1
    omega
  have hs' : q.size = 0 := by rw [hs, hnil]; rfl
  unfold build_huffman_tree
  rw [he]
  simp only []
  rw [hs']
  simp [merge_loop, extract_min, hs']

/-! ### Trees, paths and the code table -/

theorem full_ne_null (t : HuffmanNode) (h : full t) : t ≠ null := by
  intro hn; subst hn; exact h

theorem full_merge (l r : HuffmanNode) (hl : full l) (hr : full r) : full (merge l r) :=
  Or.inr ⟨hl, hr⟩

theorem leaves_merge (l r : HuffmanNode) (hl : full l) : leaves (merge l r) = leaves l ++ leaves r := by
  have := full_ne_null l hl
  simp [merge, leaves, this]

theorem leaves_create_node (d f : Nat) : leaves (create_node d f) = [d] := by
  simp [create_node, leaves]

theorem full_create_node (d f : Nat) : full (create_node d f) := Or.inl ⟨rfl, rfl⟩

theorem full_levels (t : HuffmanNode) : full t → 1 ≤ (leaves t).length ∧ levels t ≤ (leaves t).length := by
  induction t with
  | null => intro h; exact absurd h id
  | node d f l r ihl ihr =>
    intro h
    rcases h with ⟨hl, hr⟩ | ⟨hl, hr⟩
    · subst hl; subst hr
      simp [leaves, levels]
    · have h1 := ihl hl
      have h2 := ihr hr
      have := full_ne_null l hl
      simp only [leaves, levels, this, false_and, if_false, List.length_append]
      omega

theorem paths_fst (t : HuffmanNode) : (paths t).map Prod.fst = leaves t := by
  induction t with
  | null => rfl
  | node d f l r ihl ihr =>
    simp only [paths, leaves]
    split
    · rfl
    · rw [← ihl, ← ihr, List.map_append, List.map_map, List.map_map]
      rfl

theorem paths_binary (t : HuffmanNode) :
    ∀ x ∈ paths t, ∀ c ∈ x.2, c = '0' ∨ c = '1' := by
  induction t with
  | null => intro x hx; simp [paths] at hx
  | node d f l r ihl ihr =>
    intro x hx c hc
    simp only [paths] at hx
    split at hx
    · simp at hx; subst hx; simp at hc
    · rw [List.mem_append, List.mem_map, List.mem_map] at hx
      rcases hx with ⟨y, hy, rfl⟩ | ⟨y, hy, rfl⟩
      · rcases List.mem_cons.1 hc with rfl | hc'
        · exact Or.inl rfl
        · exact ihl y hy c hc'
      · rcases List.mem_cons.1 hc with rfl | hc'
        · exact Or.inr rfl
        · exact ihr y hy c hc'

/-- No root-to-leaf path of a tree is a prefix of the path of another leaf. -/
theorem paths_prefix (t : HuffmanNode) :
    ∀ x ∈ paths t, ∀ y ∈ paths t, x.2 <+: y.2 → x = y := by
  induction t with
  | null => intro x hx; simp [paths] at hx
  | node d f l r ihl ihr =>
    intro x hx y hy hp
    simp only [paths] at hx hy
    by_cases hleaf : l = null ∧ r = null
    · rw [if_pos hleaf] at hx hy
      simp at hx hy; rw [hx, hy]
    · rw [if_neg hleaf, List.mem_append, List.mem_map, List.mem_map] at hx hy
      rcases hx with ⟨x', hx', rfl⟩ | ⟨x', hx', rfl⟩ <;>
        rcases hy with ⟨y', hy', rfl⟩ | ⟨y', hy', rfl⟩
      · simp only [List.cons_prefix_cons, true_and] at hp
        rw [ihl x' hx' y' hy' hp]
      · simp only [List.cons_prefix_cons] at hp
        exact absurd hp.1 (by decide)
      · simp only [List.cons_prefix_cons] at hp
        exact absurd hp.1 (by decide)
      · simp only [List.cons_prefix_cons, true_and] at hp
        rw [ihr x' hx' y' hy' hp]

theorem record_nil (pre : List Char) (codes : Nat → Option (List Char)) :
    record pre codes [] = codes := rfl

theorem record_cons (pre : List Char) (codes : Nat → Option (List Char))
    (p : Nat × List Char) (ps : List (Nat × List Char)) :
    record pre codes (p :: ps) = record pre (assign codes p.1 (pre ++ p.2)) ps := rfl

theorem record_append (pre : List Char) (codes : Nat → Option (List Char))
    (ps qs : List (Nat × List Char)) :
    record pre codes (ps ++ qs) = record pre (record pre codes ps) qs := by
  simp [record, List.foldl_append]

theorem record_map (pre : List Char) (c : Char) (codes : Nat → Option (List Char))
    (ps : List (Nat × List Char)) :
    record pre codes (ps.map (fun p => (p.1, c :: p.2))) = record (pre ++ [c]) codes ps := by
  simp [record, List.foldl_map]

theorem record_lookup (pre : List Char) :
    ∀ ps codes b, record pre codes ps b = codes b ∨
      ∃ p, (b, p) ∈ ps ∧ record pre codes ps b = some (pre ++ p) := by
  intro ps
  induction ps with
  | nil => intro codes b; exact Or.inl rfl
  | cons x ps ih =>
    intro codes b
    rw [record_cons]
    rcases ih (assign codes x.1 (pre ++ x.2)) b with h | ⟨p, hp, h⟩
    · by_cases hb : b = x.1
      · right
        refine ⟨x.2, ?_, ?_⟩
        · rw [hb]; exact List.mem_cons_self _ _
        · rw [h]; simp [assign, hb]
      · left
        rw [h]; simp [assign, hb]
    · exact Or.inr ⟨p, List.mem_cons_of_mem _ hp, h⟩

theorem record_assigned (pre : List Char) (codes : Nat → Option (List Char))
    (ps : List (Nat × List Char)) (b : Nat) (hb : b ∈ ps.map Prod.fst) :
    ∃ p, (b, p) ∈ ps ∧ record pre codes ps b = some (pre ++ p) := by
  induction ps generalizing codes with
  | nil => simp at hb
  | cons x ps ih =>
    rw [record_cons]
    by_cases hm : b ∈ ps.map Prod.fst
    · obtain ⟨p, hp, h⟩ := ih (assign codes x.1 (pre ++ x.2)) hm
      exact ⟨p, List.mem_cons_of_mem _ hp, h⟩
    · have hbx : b = x.1 := by
        simp only [List.map_cons, List.mem_cons] at hb
        rcases hb with h | h
        · exact h
        · exact absurd h hm
      rcases record_lookup pre ps (assign codes x.1 (pre ++ x.2)) b with h | ⟨p, hp, h⟩
      · refine ⟨x.2, ?_, ?_⟩
        · rw [hbx]; exact List.mem_cons_self _ _
        · rw [h]; simp [assign, hbx]
      · exact ⟨p, List.mem_cons_of_mem _ hp, h⟩

theorem strdup_eq (buffer : Nat → Char) (depth : Nat) (pre : List Char)
    (hpre : (List.range depth).map buffer = pre) (hnul : buffer depth = NUL)
    (hd : depth < BUFFER_SIZE) (hc : ∀ c ∈ pre, c ≠ NUL) : strdup buffer = pre := by
  unfold strdup
  obtain ⟨k, hk⟩ : ∃ k, BUFFER_SIZE = depth + (k + 1) := ⟨BUFFER_SIZE - depth - 1, by omega⟩
  rw [hk, List.range_add, List.map_append, hpre, List.range_succ_eq_map]
  rw [List.takeWhile_append_of_pos (by simpa using hc)]
  simp [hnul]

theorem prefix_poke (buffer : Nat → Char) (depth : Nat) (c : Char) :
    (List.range depth).map (poke buffer depth c) = (List.range depth).map buffer := by
  apply List.map_congr_left
  intro j hj
  rw [List.mem_range] at hj
  simp [poke, Nat.ne_of_lt hj]

theorem prefix_poke_succ (buffer : Nat → Char) (depth : Nat) (c : Char) :
    (List.range (depth + 1)).map (poke buffer depth c) =
      (List.range depth).map buffer ++ [c] := by
  rw [List.range_succ, List.map_append, prefix_poke]
  simp [poke]

theorem prefix_of_succ (buffer : Nat → Char) (depth : Nat) (pre : List Char) (c : Char)
    (h : (List.range (depth + 1)).map buffer = pre ++ [c]) :
    (List.range depth).map buffer = pre := by
  rw [List.range_succ, List.map_append] at h
  have hl : ((List.range depth).map buffer).length = pre.length := by
    have := congrArg List.length h
    simp at this
    simpa using this
  exact (List.append_inj h hl).1

/-- Called with the path so far in `buffer[0 .. depth)`, `generate_codes` records for every leaf below the node that path followed by the path from the node, provided the buffer is long enough. -/
theorem generate_codes_spec (t : HuffmanNode) :
    ∀ codes buffer depth pre, (List.range depth).map buffer = pre →
      (∀ c ∈ pre, c ≠ NUL) → depth + levels t ≤ BUFFER_SIZE →
      ∃ buffer', generate_codes t codes buffer depth = .ok (record pre codes (paths t), buffer') ∧
        (List.range depth).map buffer' = pre := by
  induction t with
  | null =>
    intro codes buffer depth pre hpre _ _
    exact ⟨buffer, rfl, hpre⟩
  | node d f l r ihl ihr =>
    intro codes buffer depth pre hpre hc hlev
    simp only [levels] at hlev
    have hd : depth < BUFFER_SIZE := by omega
    rw [generate_codes]
    simp only [hd, if_true, paths]
    split
    · refine ⟨poke buffer depth NUL, ?_, ?_⟩
      · have : strdup (poke buffer depth NUL) = pre := by
          apply strdup_eq _ depth pre _ _ hd hc
          · rw [prefix_poke]; exact hpre
          · simp [poke]
        rw [this]
        simp [record]
      · rw [prefix_poke]; exact hpre
    · have h0 : ∀ c ∈ pre ++ ['0'], c ≠ NUL := by
        intro c hc'
        rcases List.mem_append.1 hc' with h | h
        · exact hc c h
        · simp at h; subst h; decide
      have h1 : ∀ c ∈ pre ++ ['1'], c ≠ NUL := by
        intro c hc'
        rcases List.mem_append.1 hc' with h | h
        · exact hc c h
        · simp at h; subst h; decide
      obtain ⟨b1, he1, hp1⟩ := ihl codes (poke buffer depth '0') (depth + 1) (pre ++ ['0'])
        (by rw [prefix_poke_succ, hpre]) h0 (by omega)
      have hp1' := prefix_of_succ b1 depth pre '0' hp1
      obtain ⟨b2, he2, hp2⟩ := ihr (record (pre ++ ['0']) codes (paths l))
        (poke b1 depth '1') (depth + 1) (pre ++ ['1'])
        (by rw [prefix_poke_succ, hp1']) h1 (by omega)
      refine ⟨b2, ?_, prefix_of_succ b2 depth pre '1' hp2⟩
      rw [he1]
      simp only []
      rw [he2, record_append, record_map, record_map]

/-! ### Codes of a built tree (C2) -/

theorem sum_singletons (l : List Nat) :
    (l.map (fun i => ((([i] : List Nat) : Multiset Nat)))).sum = (l : Multiset Nat) := by
  induction l with
  | nil => rfl
  | cons a l ih =>
    rw [List.map_cons, List.sum_cons, ih]
    rfl

theorem build_huffman_tree_full (frequencies : Nat → Nat)
    (hne : ∃ i, i < 256 ∧ 0 < frequencies i) :
    ∃ root, build_huffman_tree frequencies = .ok root ∧ full root ∧
      (leaves root).Perm (symbols frequencies 256) := by
  obtain ⟨root, he, hf, hl⟩ := build_huffman_tree_spec full
    (fun t => ((leaves t : List Nat) : Multiset Nat)) full_merge
    (fun l r hl _ => by
      show ((leaves (merge l r) : List Nat) : Multiset Nat) = _
      rw [leaves_merge l r hl]; rfl)
    frequencies (fun i _ _ => full_create_node i _) hne
  refine ⟨root, he, hf, ?_⟩
  simp only [leaves_create_node] at hl
  rw [sum_singletons] at hl
  exact Multiset.coe_eq_coe.1 hl

theorem build_huffman_tree_levels (frequencies : Nat → Nat) (root : HuffmanNode)
    (h : build_huffman_tree frequencies = .ok root) :
    full root ∧ (leaves root).Perm (symbols frequencies 256) ∧ levels root ≤ BUFFER_SIZE := by
  by_cases hne : ∃ i, i < 256 ∧ 0 < frequencies i
  · obtain ⟨root', he, hf, hl⟩ := build_huffman_tree_full frequencies hne
    rw [h] at he
    injection he with he
    subst he
    refine ⟨hf, hl, ?_⟩
    have h1 := (full_levels root hf).2
    have h2 := hl.length_eq
    have h3 := symbols_length_le frequencies 256
    unfold BUFFER_SIZE
    omega
  · have hz : ∀ i, i < 256 → frequencies i = 0 := by
      intro i hi
      by_contra hc
      exact hne ⟨i, hi, by omega⟩
    rw [build_huffman_tree_empty frequencies hz] at h
    cases h

theorem generate_codes_root (root : HuffmanNode) (h : levels root ≤ BUFFER_SIZE) :
    ∃ buffer, generate_codes root (fun _ => none) (fun _ => NUL) 0 =
      .ok (record [] (fun _ => none) (paths root), buffer) := by
  obtain ⟨b, he, _⟩ := generate_codes_spec root (fun _ => none) (fun _ => NUL) 0 [] rfl
    (by simp) (by omega)
  exact ⟨b, he⟩

theorem codes_of_histogram_ok (frequencies : Nat → Nat) (root : HuffmanNode)
    (h : build_huffman_tree frequencies = .ok root) :
    codes_of_histogram frequencies = .ok (record [] (fun _ => none) (paths root)) := by
  obtain ⟨b, he⟩ := generate_codes_root root (build_huffman_tree_levels frequencies root h).2.2
  unfold codes_of_histogram
  rw [h]
  simp only []
  rw [he]

theorem codes_of_histogram_inv (frequencies : Nat → Nat) (codes : Nat → Option (List Char))
    (h : codes_of_histogram frequencies = .ok codes) :
    ∃ root, build_huffman_tree frequencies = .ok root ∧
      codes = record [] (fun _ => none) (paths root) := by
  have h0 := h
  unfold codes_of_histogram at h
  split at h
  · cases h
  · rename_i root hb
    have h1 := codes_of_histogram_ok frequencies root hb
    have h2 : (Except.ok codes : Except Fault (Nat → Option (List Char))) =
        Except.ok (record [] (fun _ => none) (paths root)) := h0.symm.trans h1
    have h3 : codes = record [] (fun _ => none) (paths root) := by
      injection h2
    exact Exists.intro root (And.intro hb h3)

theorem record_root_some (t : HuffmanNode) (b : Nat) (code : List Char)
    (h : record [] (fun _ => none) (paths t) b = some code) : (b, code) ∈ paths t := by
  rcases record_lookup [] (paths t) (fun _ => none) b with h1 | ⟨p, hp, h1⟩
  · rw [h1] at h; cases h
  · rw [h1] at h
    injection h with h
    rw [List.nil_append] at h
    rw [← h]; exact hp

theorem record_root_leaf (t : HuffmanNode) (b : Nat) (hb : b ∈ leaves t) :
    ∃ code, record [] (fun _ => none) (paths t) b = some code := by
  rw [← paths_fst] at hb
  obtain ⟨p, _, h⟩ := record_assigned [] (fun _ => none) (paths t) b hb
  exact ⟨[] ++ p, h⟩

theorem record_root_none (t : HuffmanNode) (b : Nat) (hb : b ∉ leaves t) :
    record [] (fun _ => none) (paths t) b = none := by
  rcases record_lookup [] (paths t) (fun _ => none) b with h1 | ⟨p, hp, _⟩
  · exact h1
  · exfalso
    apply hb
    rw [← paths_fst]
    exact List.mem_map.2 ⟨(b, p), hp, rfl⟩

/-- C2. For every frequency table, once `build_huffman_tree` and `generate_codes` have run,
the assigned codes are prefix-free: for two distinct byte values that both have a code, the
code of the first is not a prefix of the code of the second. Both functions do run to
completion for every table with a nonzero entry among its 256. -/
theorem codes_prefix_free (frequencies : Nat → Nat) :
    (∀ codes, codes_of_histogram frequencies = .ok codes →
      ∀ a b ca cb, a ≠ b → codes a = some ca → codes b = some cb → ¬ ca <+: cb) ∧
    ((∃ i, i < 256 ∧ 0 < frequencies i) →
      ∃ codes, codes_of_histogram frequencies = .ok codes) := by
  constructor
  · intro codes h a b ca cb hab ha hb hpre
    obtain ⟨root, _, rfl⟩ := codes_of_histogram_inv frequencies codes h
    have h1 := record_root_some root a ca ha
    have h2 := record_root_some root b cb hb
    have := paths_prefix root _ h1 _ h2 hpre
    exact hab (congrArg Prod.fst this)
  · intro hne
    obtain ⟨root, he, _, _⟩ := build_huffman_tree_full frequencies hne
    exact ⟨_, codes_of_histogram_ok frequencies root he⟩

theorem symbols_single (frequencies : Nat → Nat) (a : Nat) (ha : a < 256)
    (hpos : 0 < frequencies a) (hz : ∀ i, i < 256 → i ≠ a → frequencies i = 0) :
    (symbols frequencies 256).length = 1 := by
  have hperm : (symbols frequencies 256).Perm [a] := by
    apply (List.perm_ext_iff_of_nodup (symbols_nodup _ _) (List.nodup_singleton a)).2
    intro i
    rw [mem_symbols, List.mem_singleton]
    constructor
    · rintro ⟨h1, h2⟩
      by_contra hia
      have := hz i h1 hia
      omega
    · rintro rfl
      exact ⟨ha, hpos⟩
  exact hperm.length_eq

theorem build_huffman_tree_single (frequencies : Nat → Nat) (a : Nat) (ha : a < 256)
    (hpos : 0 < frequencies a) (hz : ∀ i, i < 256 → i ≠ a → frequencies i = 0) :
    build_huffman_tree frequencies = .ok (create_node a (frequencies a)) := by
  obtain ⟨root, he, ⟨hf, hP⟩, hl⟩ := build_huffman_tree_spec
    (fun t => full t ∧ (t.left = null → t = create_node a (frequencies a)))
    (fun t => ((leaves t : List Nat) : Multiset Nat))
    (fun l r hl hr => ⟨full_merge l r hl.1 hr.1,
      fun h => absurd h (full_ne_null l hl.1)⟩)
    (fun l r hl _ => by
      show ((leaves (merge l r) : List Nat) : Multiset Nat) = _
      rw [leaves_merge l r hl.1]; rfl)
    frequencies
    (fun i hi hp => ⟨full_create_node i _, fun _ => by
      have : i = a := by
        by_contra hia
        have := hz i hi hia
        omega
      rw [this]⟩)
    ⟨a, ha, hpos⟩
  rw [he]
  simp only [leaves_create_node] at hl
  rw [sum_singletons] at hl
  have hlen : (leaves root).length = 1 := by
    rw [(Multiset.coe_eq_coe.1 hl).length_eq]
    exact symbols_single frequencies a ha hpos hz
  cases root with
  | null => exact absurd hf id
  | node d f l r =>
    by_cases hln : l = null
    · rw [hP hln]
    · exfalso
      rcases hf with ⟨h1, _⟩ | ⟨h1, h2⟩
      · exact hln h1
      · have e1 := (full_levels l h1).1
        have e2 := (full_levels r h2).1
        simp only [leaves, hln, false_and, if_false, List.length_append] at hlen
        omega

/-! ### Bit packing -/

theorem bits_value_append (p : List Bool) (b : Bool) :
    bits_value (p ++ [b]) = 2 * bits_value p + (if b then 1 else 0) := by
  simp [bits_value, List.foldl_append]

theorem bits_value_lt (p : List Bool) : bits_value p < 2 ^ p.length := by
  induction p using List.reverseRecOn with
  | nil => simp [bits_value]
  | append_singleton p b ih =>
    rw [bits_value_append, List.length_append, List.length_singleton, pow_succ]
    split <;> omega

theorem bits_value_zeros (p : List Bool) (m : Nat) :
    bits_value (p ++ List.replicate m false) = bits_value p * 2 ^ m := by
  induction m with
  | zero => simp
  | succ m ih =>
    rw [List.replicate_succ', ← List.append_assoc, bits_value_append, ih, pow_succ]
    simp only [Bool.false_eq_true, if_false]
    ring

theorem bits_msb_value (p : List Bool) : bits_msb p.length (bits_value p) = p := by
  induction p using List.reverseRecOn with
  | nil => rfl
  | append_singleton p b ih =>
    rw [bits_value_append, List.length_append, List.length_singleton]
    unfold bits_msb
    rw [List.range_succ, List.map_append]
    congr 1
    · conv_rhs => rw [← ih]
      unfold bits_msb
      apply List.map_congr_left
      intro k hk
      rw [List.mem_range] at hk
      have e : p.length + 1 - 1 - k = (p.length - 1 - k) + 1 := by omega
      rw [e, Nat.testBit_succ]
      congr 1
      split <;> omega
    · simp only [List.map_cons, List.map_nil]
      have e : p.length + 1 - 1 - p.length = 0 := by omega
      rw [e, Nat.testBit_zero]
      cases b
      · simp
      · simp; omega

theorem byte_bits_value (p : List Bool) (h : p.length = 8) : byte_bits (bits_value p) = p := by
  have := bits_msb_value p
  rw [h] at this
  exact this

theorem read_bits_append (a b : List Nat) : read_bits (a ++ b) = read_bits a ++ read_bits b := by
  simp [read_bits]

theorem read_bits_single (x : Nat) : read_bits [x] = byte_bits x := by
  simp [read_bits]

theorem shift_or (v : Nat) (hv : v < 128) (bit : Nat) (hb : bit < 2) :
    ((v <<< 1) ||| bit) % 256 = 2 * v + bit := by
  revert bit
  revert v
  decide

/-- One step of the inner loop of `compress_file` appends one bit to the bits held. -/
theorem put_bit_packs (s : BitState) (bs : List Bool) (c : Char) (h : packs s bs)
    (hc : c = '0' ∨ c = '1') : packs (put_bit s c) (bs ++ [decide (c = '1')]) := by
  obtain ⟨pending, hbs, hlen, hlt, hval, hw⟩ := h
  have hv : bits_value pending < 128 := by
    have h1 := bits_value_lt pending
    have h2 : 2 ^ pending.length ≤ 2 ^ 7 := Nat.pow_le_pow_right (by decide) (by omega)
    omega
  have hnew : ((s.current_byte <<< 1) ||| (c.toNat - '0'.toNat)) % 256 =
      bits_value (pending ++ [decide (c = '1')]) := by
    rw [bits_value_append, hval]
    rcases hc with rfl | rfl
    · exact shift_or _ hv 0 (by decide)
    · exact shift_or _ hv 1 (by decide)
  unfold put_bit
  simp only [hnew]
  split
  · rename_i h8
    refine ⟨[], ?_, rfl, Nat.zero_lt_succ 7, rfl, ?_⟩
    · simp only [List.append_nil]
      rw [read_bits_append, read_bits_single, byte_bits_value _ (by simp; omega), hbs,
        List.append_assoc]
    · intro x hx
      rcases List.mem_append.1 hx with hx | hx
      · exact hw x hx
      · rw [List.mem_singleton] at hx
        rw [hx, ← hnew]
        exact Nat.mod_lt _ (by decide)
  · rename_i h8
    refine ⟨pending ++ [decide (c = '1')], ?_, by simp; omega, by simp only []; omega, rfl, hw⟩
    rw [hbs, List.append_assoc]

theorem put_code_packs (code : List Char) :
    ∀ s bs, packs s bs → (∀ c ∈ code, c = '0' ∨ c = '1') →
      packs (put_code s code) (bs ++ code_bits code) := by
  induction code with
  | nil => intro s bs h _; simpa [put_code, code_bits] using h
  | cons c code ih =>
    intro s bs h hc
    have h1 := put_bit_packs s bs c h (hc c (List.mem_cons_self _ _))
    have h2 := ih (put_bit s c) _ h1 (fun c' hc' => hc c' (List.mem_cons_of_mem _ hc'))
    simpa [put_code, code_bits, List.append_assoc] using h2

theorem put_bytes_packs (codes : Nat → Option (List Char)) (data : List Nat) :
    ∀ s bs, packs s bs →
      (∀ b ∈ data, ∃ code, codes b = some code ∧ ∀ c ∈ code, c = '0' ∨ c = '1') →
      ∃ s', put_bytes codes data s = .ok s' ∧ packs s' (bs ++ message codes data) := by
  induction data with
  | nil =>
    intro s bs h _
    exact ⟨s, rfl, by simpa [message] using h⟩
  | cons b data ih =>
    intro s bs h hc
    obtain ⟨code, hcode, hbin⟩ := hc b (List.mem_cons_self _ _)
    obtain ⟨s', he, hp⟩ := ih (put_code s code) _ (put_code_packs code s bs h hbin)
      (fun b' hb' => hc b' (List.mem_cons_of_mem _ hb'))
    refine ⟨s', ?_, ?_⟩
    · rw [put_bytes, hcode]
      exact he
    · have : message codes (b :: data) = code_bits code ++ message codes data := by
        simp [message, hcode]
      rw [this, ← List.append_assoc]
      exact hp

/-- The final partial byte is padded with zero bits on the right. -/
theorem flush_packs (s : BitState) (bs : List Bool) (h : packs s bs) :
    ∃ pad, pad < 8 ∧ read_bits (flush s) = bs ++ List.replicate pad false ∧
      ∀ x ∈ flush s, x < 256 := by
  obtain ⟨pending, hbs, hlen, hlt, hval, hw⟩ := h
  unfold flush
  split
  · rename_i hpos
    have hm : s.current_byte <<< (8 - s.bit_count) % 256
        = bits_value (pending ++ List.replicate (8 - s.bit_count) false) := by
      rw [bits_value_zeros, Nat.shiftLeft_eq, hval]
      apply Nat.mod_eq_of_lt
      have h1 := bits_value_lt pending
      have h2 : bits_value pending * 2 ^ (8 - s.bit_count) <
          2 ^ pending.length * 2 ^ (8 - s.bit_count) :=
        Nat.mul_lt_mul_of_pos_right h1 (Nat.pow_pos (by decide))
      rw [← pow_add, hlen, show s.bit_count + (8 - s.bit_count) = 8 by omega] at h2
      exact h2
    refine ⟨8 - s.bit_count, by omega, ?_, ?_⟩
    · rw [read_bits_append, read_bits_single, hm,
        byte_bits_value _ (by simp; omega), hbs, List.append_assoc]
    · intro x hx
      rcases List.mem_append.1 hx with hx | hx
      · exact hw x hx
      · rw [List.mem_singleton] at hx
        rw [hx]
        exact Nat.mod_lt _ (by decide)
  · rename_i hz
    refine ⟨0, by decide, ?_, hw⟩
    have : pending = [] := List.length_eq_zero.1 (by omega)
    rw [hbs, this]
    simp

theorem packs_initial : packs { current_byte := 0, bit_count := 0, written := [] } [] :=
  ⟨[], rfl, rfl, by decide, rfl, by simp⟩

/-! ### Output of compress_file and the decoder -/

theorem byte_bits_length (b : Nat) : (byte_bits b).length = 8 := by
  simp [byte_bits]

theorem read_bits_cons (b : Nat) (bs : List Nat) :
    read_bits (b :: bs) = byte_bits b ++ read_bits bs := by
  simp [read_bits]

theorem read_bits_length (bytes : List Nat) : (read_bits bytes).length = 8 * bytes.length := by
  induction bytes with
  | nil => rfl
  | cons b bs ih =>
    rw [read_bits_cons, List.length_append, byte_bits_length, ih, List.length_cons]
    omega

theorem byte_bits_getD (b k : Nat) (hk : k < 8) :
    (byte_bits b).getD k false = b.testBit (7 - k) := by
  unfold byte_bits
  rw [List.getD_eq_getElem _ _ (by simpa using hk)]
  simp

theorem read_bits_getD (bytes : List Nat) :
    ∀ k, k < 8 * bytes.length → (read_bits bytes).getD k false = stream_bit bytes k := by
  induction bytes with
  | nil => intro k hk; simp at hk
  | cons b bs ih =>
    intro k hk
    rw [read_bits_cons]
    by_cases h8 : k < 8
    · rw [List.getD_append _ _ _ _ (by rw [byte_bits_length]; exact h8), byte_bits_getD b k h8]
      unfold stream_bit
      have e1 : k / 8 = 0 := by omega
      have e2 : k % 8 = k := by omega
      rw [e1, e2]
      rfl
    · rw [List.getD_append_right _ _ _ _ (by rw [byte_bits_length]; omega), byte_bits_length,
        ih (k - 8) (by rw [List.length_cons] at hk; omega)]
      unfold stream_bit
      have e1 : k / 8 = (k - 8) / 8 + 1 := by omega
      have e2 : (k - 8) % 8 = k % 8 := by omega
      rw [e1, e2]
      rfl

theorem histogram_count (B : List Nat) (hlen : B.length < UNSIGNED_MOD) (b : Nat) :
    sve2_frequency_count B b = B.count b := by
  unfold sve2_frequency_count
  exact Nat.mod_eq_of_lt (lt_of_le_of_lt (List.count_le_length _ _) hlen)

theorem code_table_of_root (B : List Nat) (root : HuffmanNode)
    (h : build_huffman_tree (sve2_frequency_count B) = .ok root) :
    code_table B = .ok (record [] (fun _ => none) (paths root)) :=
  codes_of_histogram_ok _ root h

theorem code_of_eq (B : List Nat) (codes : Nat → Option (List Char))
    (h : code_table B = .ok codes) (b : Nat) : code_of B b = codes b := by
  unfold code_of
  rw [h]

theorem payload_eq (B : List Nat) (codes : Nat → Option (List Char))
    (h : code_table B = .ok codes) : payload B = message codes B := by
  have e : (fun b => code_bits ((code_of B b).getD [])) =
      (fun b => code_bits ((codes b).getD [])) := by
    funext b
    rw [code_of_eq B codes h]
  unfold payload message
  rw [e]

theorem code_table_of_assigned (B : List Nat) (hne : B ≠ [])
    (hcodes : ∀ b ∈ B, (code_of B b).isSome) :
    ∃ root, build_huffman_tree (sve2_frequency_count B) = .ok root ∧
      code_table B = .ok (record [] (fun _ => none) (paths root)) := by
  obtain ⟨b, hb⟩ := List.exists_mem_of_ne_nil B hne
  have h1 := hcodes b hb
  unfold code_of at h1
  split at h1
  · cases h1
  · rename_i codes hct
    obtain ⟨root, hr, _⟩ := codes_of_histogram_inv (sve2_frequency_count B) codes hct
    exact ⟨root, hr, code_table_of_root B root hr⟩

theorem build_of_buffer (B : List Nat) (hne : B ≠ []) (hbyte : ∀ b ∈ B, b < 256)
    (hlen : B.length < UNSIGNED_MOD) :
    ∃ root, build_huffman_tree (sve2_frequency_count B) = .ok root ∧
      ∀ b ∈ B, b ∈ leaves root := by
  have hpos : ∀ b ∈ B, 0 < sve2_frequency_count B b := by
    intro b hb
    rw [histogram_count B hlen]
    exact List.count_pos_iff.2 hb
  obtain ⟨b0, hb0⟩ := List.exists_mem_of_ne_nil B hne
  obtain ⟨root, he, _, hl⟩ := build_huffman_tree_full (sve2_frequency_count B)
    ⟨b0, hbyte b0 hb0, hpos b0 hb0⟩
  refine ⟨root, he, ?_⟩
  intro b hb
  rw [hl.mem_iff, mem_symbols]
  exact ⟨hbyte b hb, hpos b hb⟩

theorem code_of_buffer (B : List Nat) (hne : B ≠ []) (hbyte : ∀ b ∈ B, b < 256)
    (hlen : B.length < UNSIGNED_MOD) : ∀ b ∈ B, (code_of B b).isSome := by
  obtain ⟨root, he, hl⟩ := build_of_buffer B hne hbyte hlen
  intro b hb
  rw [code_of_eq B _ (code_table_of_root B root he)]
  obtain ⟨code, hc⟩ := record_root_leaf root b (hl b hb)
  rw [hc]
  rfl

/-- The file written by `compress_file`, read most significant bit first, is the payload followed by fewer than eight zero bits. -/
theorem compress_file_output (B : List Nat) (root : HuffmanNode)
    (hr : build_huffman_tree (sve2_frequency_count B) = .ok root)
    (hcodes : ∀ b ∈ B, (code_of B b).isSome) :
    ∃ bytes pad, (compress_file B).output = .ok bytes ∧ pad < 8 ∧
      read_bits bytes = payload B ++ List.replicate pad false ∧ ∀ x ∈ bytes, x < 256 := by
  have hct := code_table_of_root B root hr
  have hall : ∀ b ∈ B, ∃ code, record [] (fun _ => none) (paths root) b = some code ∧
      ∀ c ∈ code, c = '0' ∨ c = '1' := by
    intro b hb
    have h1 := hcodes b hb
    rw [code_of_eq B _ hct] at h1
    obtain ⟨code, hc⟩ := Option.isSome_iff_exists.1 h1
    exact ⟨code, hc, paths_binary root _ (record_root_some root b code hc)⟩
  obtain ⟨s, hs, hp⟩ := put_bytes_packs _ B _ [] packs_initial hall
  obtain ⟨pad, hpad, hread, hlt⟩ := flush_packs s _ hp
  refine ⟨flush s, pad, ?_, hpad, ?_, hlt⟩
  · unfold compress_file
    rw [hct]
    simp only []
    rw [hs]
  · rw [hread, payload_eq B _ hct]
    rfl

/-- Walking a tree along the path of one of its leaves reaches that leaf and consumes exactly the path. -/
theorem walk_path (t : HuffmanNode) :
    ∀ d p rest, (d, p) ∈ paths t → walk t (code_bits p ++ rest) = some (d, rest) := by
  induction t with
  | null => intro d p rest h; simp [paths] at h
  | node d0 f l r ihl ihr =>
    intro d p rest h
    simp only [paths] at h
    by_cases hleaf : l = null ∧ r = null
    · rw [if_pos hleaf, List.mem_singleton] at h
      injection h with h1 h2
      subst h1; subst h2
      simp [walk, hleaf, code_bits]
    · rw [if_neg hleaf, List.mem_append, List.mem_map, List.mem_map] at h
      rcases h with ⟨x, hx, hxe⟩ | ⟨x, hx, hxe⟩
      · injection hxe with h1 h2
        subst h1; subst h2
        have := ihl x.1 x.2 rest hx
        simp only [walk, if_neg hleaf, code_bits, List.map_cons, List.cons_append]
        simpa [code_bits] using this
      · injection hxe with h1 h2
        subst h1; subst h2
        have := ihr x.1 x.2 rest hx
        simp only [walk, if_neg hleaf, code_bits, List.map_cons, List.cons_append]
        simpa [code_bits] using this

/-- Decoding the concatenated codes of a buffer gives the buffer back. -/
theorem decode_message (root : HuffmanNode) (codes : Nat → Option (List Char))
    (data : List Nat) :
    ∀ rest, (∀ b ∈ data, ∃ code, codes b = some code ∧ (b, code) ∈ paths root) →
      decode root data.length (message codes data ++ rest) = some data := by
  induction data with
  | nil => intro rest _; rfl
  | cons b data ih =>
    intro rest h
    obtain ⟨code, hc, hp⟩ := h b (List.mem_cons_self _ _)
    have hm : message codes (b :: data) = code_bits code ++ message codes data := by
      simp [message, hc]
    rw [List.length_cons, decode, hm, List.append_assoc, walk_path root b code _ hp]
    simp only []
    rw [ih rest (fun b' hb' => h b' (List.mem_cons_of_mem _ hb'))]

/-! ### Round trip, degenerate inputs, container, result struct (C1, C3 to C8) -/

theorem assigned_paths (B : List Nat) (root : HuffmanNode) (hl : ∀ b ∈ B, b ∈ leaves root) :
    ∀ b ∈ B, ∃ code, record [] (fun _ => none) (paths root) b = some code ∧
      (b, code) ∈ paths root := by
  intro b hb
  obtain ⟨code, hc⟩ := record_root_leaf root b (hl b hb)
  exact ⟨code, hc, record_root_some root b code hc⟩

theorem flatten_length_ge (L : List (List Nat)) (h : ∀ e ∈ L, e ≠ []) :
    L.length ≤ L.flatten.length := by
  induction L with
  | nil => simp
  | cons e L ih =>
    have h1 : e ≠ [] := h e (List.mem_cons_self _ _)
    have h2 := ih (fun e' he' => h e' (List.mem_cons_of_mem _ he'))
    have h3 : 0 < e.length := List.length_pos.2 h1
    rw [List.flatten_cons, List.length_append, List.length_cons]
    omega

set_option maxRecDepth 100000 in
/-- C1 (counterexample). No function can recover every buffer from the file that
`compress_file` writes for it: the one-byte buffers `[65]` and `[66]` both compress to the
empty file. -/
theorem no_decompressor_from_file_alone :
    ¬ ∃ D : List Nat → List Nat,
      ∀ B bytes, (compress_file B).output = .ok bytes → D bytes = B := by
  rintro ⟨D, h⟩
  have h1 : D [] = [65] := h [65] [] (by rfl)
  have h2 : D [] = [66] := h [66] [] (by rfl)
  rw [h1] at h2
  exact absurd h2 (by decide)

/-- C1 (amended). For every non-empty byte buffer `B` of fewer than `2 ^ 32` bytes,
`compress_file` writes a file from which `B` is recovered by the decoder of the spec when
the histogram of `B` and the length of `B` are supplied to it: the tree is rebuilt from the
histogram, the bytes are read most significant bit first, and the tree is walked from the
root once per byte of `B`. -/
theorem round_trip_given_histogram_and_length (B : List Nat) (hne : B ≠ [])
    (hbyte : ∀ b ∈ B, b < 256) (hlen : B.length < UNSIGNED_MOD) :
    ∃ bytes, (compress_file B).output = .ok bytes ∧
      decompress (sve2_frequency_count B) B.length bytes = some B := by
  obtain ⟨root, he, hl⟩ := build_of_buffer B hne hbyte hlen
  obtain ⟨bytes, pad, ho, _, hread, _⟩ :=
    compress_file_output B root he (code_of_buffer B hne hbyte hlen)
  refine ⟨bytes, ho, ?_⟩
  unfold decompress
  rw [he]
  simp only []
  rw [hread, payload_eq B _ (code_table_of_root B root he)]
  exact decode_message root _ B _ (assigned_paths B root hl)

/-- C1 (amended) at the buffer `[65, 66]`. -/
theorem round_trip_given_histogram_and_length_witness :
    [65, 66] ≠ [] ∧ (∀ b ∈ [65, 66], b < 256) ∧ [65, 66].length < UNSIGNED_MOD ∧
    ∃ bytes, (compress_file [65, 66]).output = .ok bytes ∧
      decompress (sve2_frequency_count [65, 66]) [65, 66].length bytes = some [65, 66] :=
  ⟨by decide, by decide, by decide,
    round_trip_given_histogram_and_length [65, 66] (by decide) (by decide) (by decide)⟩

/-- A buffer with one distinct byte value: the root is the leaf, its code is empty, and no byte is written. -/
theorem single_symbol_run (B : List Nat) (a : Nat) (hne : B ≠ []) (ha : a < 256)
    (hall : ∀ b ∈ B, b = a) (hlen : B.length < UNSIGNED_MOD) :
    build_huffman_tree (sve2_frequency_count B) = .ok (create_node a B.length) ∧
    code_of B a = some [] ∧ (compress_file B).output = .ok [] := by
  have hmem : a ∈ B := by
    obtain ⟨b, hb⟩ := List.exists_mem_of_ne_nil B hne
    rw [← hall b hb]; exact hb
  have hrep : B = List.replicate B.length a := List.eq_replicate_of_mem hall
  have hcount : sve2_frequency_count B a = B.length := by
    rw [histogram_count B hlen]
    conv_lhs => rw [hrep]
    simp
  have hz : ∀ i, i < 256 → i ≠ a → sve2_frequency_count B i = 0 := by
    intro i _ hia
    rw [histogram_count B hlen]
    apply List.count_eq_zero.2
    intro hi
    exact hia (hall i hi)
  have hpos : 0 < sve2_frequency_count B a := by
    rw [hcount]; exact List.length_pos.2 hne
  have hb := build_huffman_tree_single (sve2_frequency_count B) a ha hpos hz
  rw [hcount] at hb
  have hct := code_table_of_root B _ hb
  have hca : code_of B a = some [] := by
    rw [code_of_eq B _ hct]
    simp [create_node, paths, record, assign]
  refine ⟨hb, hca, ?_⟩
  have hcodes : ∀ b ∈ B, (code_of B b).isSome := by
    intro b hb'
    rw [hall b hb', hca]; rfl
  obtain ⟨bytes, pad, ho, hpad, hread, _⟩ := compress_file_output B _ hb hcodes
  have hpay : payload B = [] := by
    unfold payload
    apply List.flatMap_eq_nil_iff.2
    intro b hb'
    rw [hall b hb', hca]
    rfl
  rw [hpay, List.nil_append] at hread
  have h8 := congrArg List.length hread
  rw [read_bits_length, List.length_replicate] at h8
  have : bytes = [] := List.length_eq_zero.1 (by omega)
  rw [ho, this]

/-- C3 (counterexample). For the buffer of 1000 repetitions of the byte 65 the root returned
by `build_huffman_tree` is the leaf itself, with no children, and `generate_codes` assigns
the byte 65 a code of length 0. -/
theorem single_byte_buffer_counterexample :
    build_huffman_tree (sve2_frequency_count (List.replicate 1000 65)) =
      .ok (node 65 1000 null null) ∧
    code_of (List.replicate 1000 65) 65 = some [] := by
  have hne : List.replicate 1000 65 ≠ [] := by
    intro hnil
    have hl := congrArg List.length hnil
    rw [List.length_replicate, List.length_nil] at hl
    exact absurd hl (by decide)
  have hlen : (List.replicate 1000 65).length < UNSIGNED_MOD := by
    rw [List.length_replicate]
    decide
  have h := single_symbol_run (List.replicate 1000 65) 65 hne (by decide)
    (fun b hb => List.eq_of_mem_replicate hb) hlen
  rw [List.length_replicate] at h
  exact ⟨h.1, h.2.1⟩

/-- C3 (amended). For every non-empty buffer of fewer than `2 ^ 32` bytes that holds a
single byte value `a`, `build_huffman_tree` returns the leaf of `a` itself as the root,
without a synthetic parent, `generate_codes` assigns `a` the empty code, of length 0, and
`compress_file` writes no bitstream byte. -/
theorem single_symbol_gets_empty_code (B : List Nat) (a : Nat) (hne : B ≠ []) (ha : a < 256)
    (hall : ∀ b ∈ B, b = a) (hlen : B.length < UNSIGNED_MOD) :
    build_huffman_tree (sve2_frequency_count B) = .ok (create_node a B.length) ∧
    code_of B a = some [] ∧ (compress_file B).output = .ok [] :=
  single_symbol_run B a hne ha hall hlen

/-- C3 (amended) at the buffer `[65, 65, 65]`. -/
theorem single_symbol_gets_empty_code_witness :
    [65, 65, 65] ≠ [] ∧ 65 < 256 ∧ (∀ b ∈ [65, 65, 65], b = 65) ∧
    [65, 65, 65].length < UNSIGNED_MOD ∧
    build_huffman_tree (sve2_frequency_count [65, 65, 65]) =
      .ok (create_node 65 [65, 65, 65].length) ∧
    code_of [65, 65, 65] 65 = some [] ∧ (compress_file [65, 65, 65]).output = .ok [] :=
  ⟨by decide, by decide, by decide, by decide,
    single_symbol_gets_empty_code [65, 65, 65] 65 (by decide) (by decide) (by decide)
      (by decide)⟩

set_option maxRecDepth 100000 in
/-- C4. For the empty buffer `build_huffman_tree` does not return an empty tree: its last
statement calls `extract_min` on the queue of size 0, which reads the uninitialised slot
`nodes[0]`, and `compress_file` stops there, before the output file is opened. -/
theorem empty_buffer_reads_empty_queue :
    build_huffman_tree (sve2_frequency_count []) = .error Fault.extract_empty ∧
    (compress_file []).output = .error Fault.extract_empty ∧
    (compress_file []).result = .error Fault.extract_empty := by
  refine ⟨?_, ?_, ?_⟩ <;> rfl

set_option maxRecDepth 100000 in
/-- C5 (counterexample). For the buffer `[65, 66]` the file written by `compress_file` is the
single byte 64, which is no container: a container holds a pad-bit count and a histogram of
256 entries before its bitstream. -/
theorem output_is_not_a_container :
    (compress_file [65, 66]).output = .ok [64] ∧
    ¬ ∃ c : Container, c.well_formed ∧ c.bytes = [64] := by
  constructor
  · rfl
  · rintro ⟨c, ⟨h256, hne⟩, hb⟩
    have h1 := flatten_length_ge c.histogram hne
    have h2 := congrArg List.length hb
    simp only [Container.bytes, List.length_append, List.length_cons, List.length_nil] at h2
    omega

/-- C5 (amended). For every non-empty byte buffer `B` of fewer than `2 ^ 32` bytes, the file
written by `compress_file` is the packed bitstream and nothing else: read most significant
bit first, its bytes are the concatenated codes of the bytes of `B` followed by fewer than
eight zero bits. No format marker, original length, pad-bit count or histogram is written. -/
theorem output_is_bare_bitstream (B : List Nat) (hne : B ≠ []) (hbyte : ∀ b ∈ B, b < 256)
    (hlen : B.length < UNSIGNED_MOD) :
    ∃ bytes pad, (compress_file B).output = .ok bytes ∧ pad < 8 ∧
      read_bits bytes = payload B ++ List.replicate pad false ∧ ∀ x ∈ bytes, x < 256 := by
  obtain ⟨root, he, _⟩ := build_of_buffer B hne hbyte hlen
  exact compress_file_output B root he (code_of_buffer B hne hbyte hlen)

/-- C5 (amended) at the buffer `[65, 66]`. -/
theorem output_is_bare_bitstream_witness :
    [65, 66] ≠ [] ∧ (∀ b ∈ [65, 66], b < 256) ∧ [65, 66].length < UNSIGNED_MOD ∧
    ∃ bytes pad, (compress_file [65, 66]).output = .ok bytes ∧ pad < 8 ∧
      read_bits bytes = payload [65, 66] ++ List.replicate pad false ∧ ∀ x ∈ bytes, x < 256 :=
  ⟨by decide, by decide, by decide,
    output_is_bare_bitstream [65, 66] (by decide) (by decide) (by decide)⟩

/-- C6. For every non-empty buffer `B` whose bytes all have an assigned code, the bytes
written by `compress_file` are the most-significant-bit-first packing of the concatenated
codes of the bytes of `B`: with `L` the number of code bits, exactly `(L + 7) / 8` bytes are
written, bit `k` of the concatenation is bit `7 - k mod 8` of byte `k / 8`, the pad bits of
the last byte are zero, and there are at most 7 of them. -/
theorem bitstream_is_msb_first_packing (B : List Nat) (hne : B ≠ [])
    (hcodes : ∀ b ∈ B, (code_of B b).isSome) :
    ∃ bytes, (compress_file B).output = .ok bytes ∧
      bytes.length = ((payload B).length + 7) / 8 ∧
      (∀ k, k < (payload B).length → stream_bit bytes k = (payload B).getD k false) ∧
      (∀ k, (payload B).length ≤ k → k < 8 * bytes.length → stream_bit bytes k = false) ∧
      8 * bytes.length - (payload B).length ≤ 7 ∧
      ∀ x ∈ bytes, x < 256 := by
  obtain ⟨root, he, _⟩ := code_table_of_assigned B hne hcodes
  obtain ⟨bytes, pad, ho, hpad, hread, hlt⟩ := compress_file_output B root he hcodes
  have h8 := congrArg List.length hread
  rw [read_bits_length, List.length_append, List.length_replicate] at h8
  refine ⟨bytes, ho, by omega, ?_, ?_, by omega, hlt⟩
  · intro k hk
    rw [← read_bits_getD bytes k (by omega), hread, List.getD_append _ _ _ _ hk]
  · intro k hk1 hk2
    rw [← read_bits_getD bytes k hk2, hread, List.getD_append_right _ _ _ _ hk1]
    by_cases hp : k - (payload B).length < pad
    · rw [List.getD_eq_getElem _ _ (by simpa using hp)]
      simp
    · rw [List.getD_eq_default _ _ (by simpa using hp)]

set_option maxRecDepth 100000 in
/-- C6 at the buffer `[65, 66]`, whose two bytes get the codes `0` and `1`. -/
theorem bitstream_is_msb_first_packing_witness :
    [65, 66] ≠ [] ∧ (∀ b ∈ [65, 66], (code_of [65, 66] b).isSome) ∧
    ∃ bytes, (compress_file [65, 66]).output = .ok bytes ∧
      bytes.length = ((payload [65, 66]).length + 7) / 8 ∧
      (∀ k, k < (payload [65, 66]).length →
        stream_bit bytes k = (payload [65, 66]).getD k false) ∧
      (∀ k, (payload [65, 66]).length ≤ k → k < 8 * bytes.length →
        stream_bit bytes k = false) ∧
      8 * bytes.length - (payload [65, 66]).length ≤ 7 ∧
      ∀ x ∈ bytes, x < 256 :=
  ⟨by decide, by decide, bitstream_is_msb_first_packing [65, 66] (by decide) (by decide)⟩

/-- C7. Whenever `compress_file` gets as far as closing its output file, the value it puts
into `compressed_size` comes from `ftell` on the stream that `fclose` has just closed, which
is not the number of bytes written: the call leaves the defined behaviour of C. -/
theorem compressed_size_read_after_fclose (file_data bytes : List Nat)
    (h : (compress_file file_data).output = .ok bytes) :
    (compress_file file_data).result = .error Fault.closed_stream := by
  unfold compress_file at h ⊢
  split
  · rename_i e hct
    rw [hct] at h
    cases h
  · rename_i codes hct
    rw [hct] at h
    simp only [] at h ⊢
    split
    · rename_i e hp
      rw [hp] at h
      cases h
    · rfl

set_option maxRecDepth 100000 in
/-- C7 at the buffer `[65, 66]`: one byte is written, and the result is the fault. -/
theorem compressed_size_read_after_fclose_witness :
    (compress_file [65, 66]).output = .ok [64] ∧
    (compress_file [65, 66]).result = .error Fault.closed_stream :=
  ⟨by rfl, compressed_size_read_after_fclose [65, 66] [64] (by rfl)⟩

/-- C8. The last `extract_min` call of `build_huffman_tree` is made on an empty queue
exactly when the frequency table has no nonzero entry, as for the empty buffer; for every
other table no call of `build_huffman_tree` leaves defined behaviour. -/
theorem extract_min_on_empty_queue (frequencies : Nat → Nat) :
    (build_huffman_tree frequencies = .error Fault.extract_empty ↔
      ∀ i, i < 256 → frequencies i = 0) ∧
    ((∃ i, i < 256 ∧ 0 < frequencies i) → ∃ root, build_huffman_tree frequencies = .ok root) := by
  have hok : (∃ i, i < 256 ∧ 0 < frequencies i) →
      ∃ root, build_huffman_tree frequencies = .ok root := by
    intro hne
    obtain ⟨root, he, _⟩ := build_huffman_tree_full frequencies hne
    exact ⟨root, he⟩
  refine ⟨⟨?_, build_huffman_tree_empty frequencies⟩, hok⟩
  intro h i hi
  by_contra hc
  obtain ⟨root, he⟩ := hok ⟨i, hi, by omega⟩
  rw [he] at h
  cases h

/-! ### Loop bounds and concrete instances -/

/-- Any bound of at least `i` gives the same result as the bound `i`: the sift-up loop of `insert_node` ends by its own condition. -/
theorem sift_up_fuel (x : HuffmanNode) :
    ∀ fuel i f, i ≤ fuel → sift_up x fuel i f = sift_up x i i f := by
  intro fuel
  induction fuel using Nat.strong_induction_on with
  | _ fuel ih =>
    intro i f hi
    cases fuel with
    | zero =>
      have : i = 0 := by omega
      subst this
      rfl
    | succ fuel =>
      cases i with
      | zero => simp [sift_up]
      | succ i =>
        rw [sift_up, sift_up]
        split
        · rw [ih fuel (by omega) _ _ (by omega), ih i (by omega) _ _ (by omega)]
        · rfl

/-- Any bound of at least `n - i` gives the same result: the sift-down loop of `extract_min` ends by its own condition. -/
theorem sift_down_fuel (n : Nat) :
    ∀ fuel i f, n ≤ fuel + i → sift_down n fuel i f = sift_down n (n - i) i f := by
  intro fuel
  induction fuel using Nat.strong_induction_on with
  | _ fuel ih =>
    intro i f hn
    by_cases hlt : 2 * i + 1 < n
    · obtain ⟨k, hk⟩ : ∃ k, fuel = k + 1 := ⟨fuel - 1, by omega⟩
      obtain ⟨m, hm⟩ : ∃ m, n - i = m + 1 := ⟨n - i - 1, by omega⟩
      rw [hk, hm, sift_down, sift_down]
      simp only [hlt, if_true]
      obtain ⟨hcn, hcp, hci, _⟩ := pick_child_least n f i hlt
      generalize pick_child n f i = c at hcn hcp hci
      split
      · rfl
      · rw [ih k (by omega) _ _ (by omega)]
        by_cases hmk : m = k
        · subst hmk
          rw [ih m (by omega) _ _ (by omega)]
        · rw [ih m (by omega) _ _ (by omega)]
    · have e1 : sift_down n fuel i f = f := by
        cases fuel with
        | zero => rfl
        | succ k => rw [sift_down]; simp [hlt]
      have e2 : sift_down n (n - i) i f = f := by
        cases n - i with
        | zero => rfl
        | succ k => rw [sift_down]; simp [hlt]
      rw [e1, e2]

theorem merge_step_size (q q' : PriorityQueue) (h : merge_step q = .ok q') :
    2 ≤ q.size ∧ q'.size + 1 = q.size := by
  unfold merge_step extract_min at h
  split at h
  · cases h
  · rename_i l q1 h1
    split at h1
    · rename_i hs
      injection h1 with h1
      injection h1 with h1 h1'
      subst h1'
      simp only [] at h
      split at h
      · cases h
      · rename_i r q2 h2
        split at h2
        · rename_i hs2
          injection h2 with h2
          injection h2 with h2 h2'
          subst h2'
          unfold insert_node at h
          split at h
          · injection h with h
            subst h
            simp only [] at hs2 ⊢
            omega
          · cases h
        · cases h2
    · cases h1

/-- Any bound of at least the queue size gives the same result: the merging loop of `build_huffman_tree` ends by its own condition. -/
theorem merge_loop_fuel :
    ∀ fuel q, q.size ≤ fuel → merge_loop fuel q = merge_loop q.size q := by
  intro fuel
  induction fuel using Nat.strong_induction_on with
  | _ fuel ih =>
    intro q hq
    by_cases hs : q.size > 1
    · obtain ⟨k, hk⟩ : ∃ k, fuel = k + 1 := ⟨fuel - 1, by omega⟩
      obtain ⟨m, hm⟩ : ∃ m, q.size = m + 1 := ⟨q.size - 1, by omega⟩
      rw [hk, hm, merge_loop, merge_loop]
      simp only [hs, if_true]
      rcases hstep : merge_step q with e | q'
      · rfl
      · simp only []
        have hsz := (merge_step_size q q' hstep).2
        rw [ih k (by omega) q' (by omega)]
        by_cases hmk : m = q'.size
        · rw [hmk]
        · rw [ih m (by omega) q' (by omega)]
    · have e1 : merge_loop fuel q = .ok q := by
        cases fuel with
        | zero => rfl
        | succ k => rw [merge_loop]; simp [hs]
      have e2 : merge_loop q.size q = .ok q := by
        generalize hn : q.size = n
        cases n with
        | zero => rfl
        | succ k => rw [merge_loop]; simp [hs]
      rw [e1, e2]

set_option maxRecDepth 100000 in
/-- C2 at the frequency table of a buffer with the two byte values 65 and 66. -/
theorem codes_prefix_free_witness :
    (∃ i, i < 256 ∧ 0 < sample_histogram i) ∧
    ∃ codes, codes_of_histogram sample_histogram = .ok codes ∧
      ∀ a b ca cb, a ≠ b → codes a = some ca → codes b = some cb → ¬ ca <+: cb := by
  have hne : ∃ i, i < 256 ∧ 0 < sample_histogram i := ⟨65, by decide, by decide⟩
  obtain ⟨codes, h⟩ := (codes_prefix_free sample_histogram).2 hne
  exact ⟨hne, codes, h, (codes_prefix_free sample_histogram).1 codes h⟩

set_option maxRecDepth 100000 in
/-- C8 at the all-zero table, which faults, and at a table with two nonzero entries. -/
theorem extract_min_on_empty_queue_witness :
    (∀ i, i < 256 → (fun _ : Nat => 0) i = 0) ∧
    build_huffman_tree (fun _ => 0) = .error Fault.extract_empty ∧
    (∃ i, i < 256 ∧ 0 < sample_histogram i) ∧
    ∃ root, build_huffman_tree sample_histogram = .ok root :=
  ⟨by decide, (extract_min_on_empty_queue (fun _ => 0)).1.2 (by decide),
    ⟨65, by decide, by decide⟩,
    (extract_min_on_empty_queue sample_histogram).2 ⟨65, by decide, by decide⟩⟩

/-! ### Leaves and shape of the built tree (C11, C15, C18) -/

theorem leaf_nodes_fst (t : HuffmanNode) : (leaf_nodes t).map Prod.fst = leaves t := by
  induction t with
  | null => rfl
  | node d f l r ihl ihr =>
    simp only [leaf_nodes, leaves]
    split
    · rfl
    · rw [List.map_append, ihl, ihr]

theorem leaf_nodes_merge (l r : HuffmanNode) (hl : full l) :
    leaf_nodes (merge l r) = leaf_nodes l ++ leaf_nodes r := by
  have := full_ne_null l hl
  simp [merge, leaf_nodes, this]

theorem leaf_nodes_create_node (d f : Nat) : leaf_nodes (create_node d f) = [(d, f)] := by
  simp [create_node, leaf_nodes]

theorem sum_pair_singletons (g : Nat → Nat × Nat) (l : List Nat) :
    (l.map (fun i => ((([g i] : List (Nat × Nat)) : Multiset (Nat × Nat))))).sum =
      ((l.map g : List (Nat × Nat)) : Multiset (Nat × Nat)) := by
  induction l with
  | nil => rfl
  | cons a l ih =>
    rw [List.map_cons, List.sum_cons, ih]
    rfl

/-- For a table with a nonzero entry the leaves of the built tree, with their weights, are a
rearrangement of the byte values with a nonzero count, each with its count. -/
theorem build_huffman_tree_leaf_nodes (frequencies : Nat → Nat)
    (hne : ∃ i, i < 256 ∧ 0 < frequencies i) :
    ∃ root, build_huffman_tree frequencies = .ok root ∧ full root ∧
      (leaf_nodes root).Perm ((symbols frequencies 256).map (fun i => (i, frequencies i))) := by
  obtain ⟨root, he, hf, hl⟩ := build_huffman_tree_spec full
    (fun t => ((leaf_nodes t : List (Nat × Nat)) : Multiset (Nat × Nat))) full_merge
    (fun l r hl _ => by
      show ((leaf_nodes (merge l r) : List (Nat × Nat)) : Multiset (Nat × Nat)) = _
      rw [leaf_nodes_merge l r hl]; rfl)
    frequencies (fun i _ _ => full_create_node i _) hne
  refine ⟨root, he, hf, ?_⟩
  simp only [leaf_nodes_create_node] at hl
  rw [sum_pair_singletons (fun i => (i, frequencies i))] at hl
  exact Multiset.coe_eq_coe.1 hl

/-- C11. For every frequency table with a nonzero entry among its 256, the leaves of the
tree returned by `build_huffman_tree` correspond one-to-one to the byte values with a
nonzero count: each such byte value is the data of exactly one leaf, that leaf weighs the
count of the byte value, and no leaf carries a byte value whose count is zero. -/
theorem leaves_match_histogram (frequencies : Nat → Nat)
    (hne : ∃ i, i < 256 ∧ 0 < frequencies i) :
    ∃ root, build_huffman_tree frequencies = .ok root ∧
      (∀ b, b < 256 → 0 < frequencies b →
        ((leaf_nodes root).map Prod.fst).count b = 1 ∧ (b, frequencies b) ∈ leaf_nodes root) ∧
      (∀ d w, (d, w) ∈ leaf_nodes root → d < 256 ∧ 0 < frequencies d ∧ w = frequencies d) := by
  obtain ⟨root, he, _, hp⟩ := build_huffman_tree_leaf_nodes frequencies hne
  refine ⟨root, he, ?_, ?_⟩
  · intro b hb hpos
    have hmem : b ∈ symbols frequencies 256 := (mem_symbols frequencies 256 b).2 ⟨hb, hpos⟩
    constructor
    · rw [(hp.map Prod.fst).count_eq, List.map_map]
      have : (Prod.fst ∘ fun i => (i, frequencies i)) = id := rfl
      rw [this, List.map_id]
      exact List.count_eq_one_of_mem (symbols_nodup frequencies 256) hmem
    · rw [hp.mem_iff]
      exact List.mem_map.2 ⟨b, hmem, rfl⟩
  · intro d w hdw
    rw [hp.mem_iff, List.mem_map] at hdw
    obtain ⟨i, hi, hiw⟩ := hdw
    injection hiw with h1 h2
    subst h1
    rw [mem_symbols] at hi
    exact ⟨hi.1, hi.2, h2.symm⟩

set_option maxRecDepth 100000 in
/-- C11 at the frequency table of a buffer with the two byte values 65 and 66. -/
theorem leaves_match_histogram_witness :
    (∃ i, i < 256 ∧ 0 < sample_histogram i) ∧
    ∃ root, build_huffman_tree sample_histogram = .ok root ∧
      (∀ b, b < 256 → 0 < sample_histogram b →
        ((leaf_nodes root).map Prod.fst).count b = 1 ∧
          (b, sample_histogram b) ∈ leaf_nodes root) ∧
      (∀ d w, (d, w) ∈ leaf_nodes root →
        d < 256 ∧ 0 < sample_histogram d ∧ w = sample_histogram d) :=
  ⟨⟨65, by decide, by decide⟩,
    leaves_match_histogram sample_histogram ⟨65, by decide, by decide⟩⟩

theorem full_nodes_of (t : HuffmanNode) (h : full t) :
    (∀ n ∈ nodes_of t, n ≠ null ∧
      ((n.left = null ∧ n.right = null) ∨ (n.left ≠ null ∧ n.right ≠ null))) ∧
    (nodes_of t).length + 1 = 2 * (leaves t).length := by
  induction t with
  | null => exact absurd h id
  | node d f l r ihl ihr =>
    rcases h with ⟨hl, hr⟩ | ⟨hl, hr⟩
    · subst hl; subst hr
      constructor
      · intro n hn
        simp [nodes_of] at hn
        subst hn
        exact ⟨by simp, Or.inl ⟨rfl, rfl⟩⟩
      · simp [nodes_of, leaves]
    · obtain ⟨hl1, hl2⟩ := ihl hl
      obtain ⟨hr1, hr2⟩ := ihr hr
      have hln := full_ne_null l hl
      have hrn := full_ne_null r hr
      constructor
      · intro n hn
        simp only [nodes_of, List.mem_cons, List.mem_append] at hn
        rcases hn with rfl | hn | hn
        · exact ⟨by simp, Or.inr ⟨hln, hrn⟩⟩
        · exact hl1 n hn
        · exact hr1 n hn
      · simp only [nodes_of, leaves, hln, false_and, if_false, List.length_cons,
          List.length_append]
        omega

/-- C18. For every frequency table with a nonzero entry, every node of the tree returned by
`build_huffman_tree` is a leaf, with both children absent, or an internal node with both a
left and a right child; no node has exactly one child, and with `k` leaves the tree has
exactly `2 * k - 1` nodes. -/
theorem nodes_have_zero_or_two_children (frequencies : Nat → Nat)
    (hne : ∃ i, i < 256 ∧ 0 < frequencies i) :
    ∃ root, build_huffman_tree frequencies = .ok root ∧
      (∀ n ∈ nodes_of root,
        (n.left = null ∧ n.right = null) ∨ (n.left ≠ null ∧ n.right ≠ null)) ∧
      (nodes_of root).length = 2 * (leaves root).length - 1 ∧
      1 ≤ (leaves root).length := by
  obtain ⟨root, he, hf, _⟩ := build_huffman_tree_full frequencies hne
  obtain ⟨h1, h2⟩ := full_nodes_of root hf
  have h3 := (full_levels root hf).1
  exact ⟨root, he, fun n hn => (h1 n hn).2, by omega, h3⟩

/-- C18 at the frequency table of a buffer with the two byte values 65 and 66. -/
theorem nodes_have_zero_or_two_children_witness :
    (∃ i, i < 256 ∧ 0 < sample_histogram i) ∧
    ∃ root, build_huffman_tree sample_histogram = .ok root ∧
      (∀ n ∈ nodes_of root,
        (n.left = null ∧ n.right = null) ∨ (n.left ≠ null ∧ n.right ≠ null)) ∧
      (nodes_of root).length = 2 * (leaves root).length - 1 ∧
      1 ≤ (leaves root).length :=
  ⟨⟨65, by decide, by decide⟩,
    nodes_have_zero_or_two_children sample_histogram ⟨65, by decide, by decide⟩⟩

theorem build_huffman_tree_outcome (frequencies : Nat → Nat) :
    (∃ root, build_huffman_tree frequencies = .ok root) ∨
      build_huffman_tree frequencies = .error Fault.extract_empty := by
  by_cases hne : ∃ i, i < 256 ∧ 0 < frequencies i
  · obtain ⟨root, he, _⟩ := build_huffman_tree_full frequencies hne
    exact Or.inl ⟨root, he⟩
  · right
    apply build_huffman_tree_empty
    intro i hi
    by_contra hc
    exact hne ⟨i, hi, by omega⟩

/-- C15. The queue that `build_huffman_tree` creates has room for every entry that is ever
live in it: `insert_node` writes past the array exactly when `size` has reached `capacity`,
and for no frequency table does a call of `insert_node` made by `build_huffman_tree` do
so, neither while the leaves are inserted nor in the merging loop. -/
theorem queue_never_overflows :
    (∀ q x, insert_node q x = .error Fault.insert_full ↔ q.capacity ≤ q.size) ∧
    (∀ q x e, insert_node q x = .error e → e = Fault.insert_full) ∧
    (∀ frequencies, insert_leaves frequencies 256 (create_priority_queue 256) ≠
      .error Fault.insert_full) ∧
    (∀ frequencies, build_huffman_tree frequencies ≠ .error Fault.insert_full) := by
  refine ⟨?_, ?_, ?_, ?_⟩
  · intro q x
    unfold insert_node
    split
    · constructor
      · intro h; cases h
      · intro h; omega
    · constructor
      · intro _; omega
      · intro _; rfl
  · intro q x e h
    unfold insert_node at h
    split at h
    · cases h
    · injection h with h
      exact h.symm
  · intro frequencies h
    obtain ⟨q, he, _⟩ :=
      insert_leaves_spec frequencies (create_priority_queue 256) 256 (by decide)
    rw [he] at h
    cases h
  · intro frequencies h
    rcases build_huffman_tree_outcome frequencies with ⟨root, he⟩ | he
    · rw [he] at h; cases h
    · rw [he] at h; cases h

/-! ### Weights and assigned codes (C12, C19) -/

theorem leaf_sum_merge (l r : HuffmanNode) (hl : full l) :
    leaf_sum (merge l r) = leaf_sum l + leaf_sum r := by
  unfold leaf_sum
  rw [leaf_nodes_merge l r hl, List.map_append, List.sum_append]

theorem leaf_sum_create_node (d f : Nat) : leaf_sum (create_node d f) = f := by
  simp [leaf_sum, leaf_nodes_create_node]

theorem weights_ok_merge (l r : HuffmanNode) (hl : weights_ok l) (hr : weights_ok r) :
    weights_ok (merge l r) :=
  Or.inr ⟨rfl, hl, hr⟩

theorem sum_counts (B : List Nat) (n : Nat) (h : ∀ b ∈ B, b < n) :
    ((List.range n).map (fun i => B.count i)).sum = B.length := by
  induction B with
  | nil => simp
  | cons a B ih =>
    have ha : a < n := h a (List.mem_cons_self _ _)
    have ih' := ih (fun b hb => h b (List.mem_cons_of_mem _ hb))
    have hstep : ∀ m, ((List.range m).map (fun i => (a :: B).count i)).sum =
        ((List.range m).map (fun i => B.count i)).sum + (if a < m then 1 else 0) := by
      intro m
      induction m with
      | zero => simp
      | succ m ihm =>
        rw [List.range_succ, List.map_append, List.map_append, List.sum_append,
          List.sum_append, ihm]
        simp only [List.map_cons, List.map_nil, List.sum_cons, List.sum_nil, Nat.add_zero]
        by_cases h1 : a = m
        · subst h1
          rw [List.count_cons_self]
          simp
          omega
        · rw [List.count_cons_of_ne (fun h => h1 h.symm)]
          by_cases h3 : a < m
          · have h4 : a < m + 1 := by omega
            simp only [h3, h4, if_true]
            omega
          · have h4 : ¬ a < m + 1 := by omega
            simp only [h3, h4, if_false]
            omega
    rw [hstep n, ih', List.length_cons]
    simp [ha]

theorem sum_symbols (f : Nat → Nat) (n : Nat) :
    ((symbols f n).map f).sum = ((List.range n).map f).sum := by
  induction n with
  | zero => rfl
  | succ n ih =>
    rw [symbols_succ, List.range_succ, List.map_append, List.sum_append, ← ih]
    by_cases h : 0 < f n
    · simp [h]
    · have : f n = 0 := by omega
      simp [h, this]

theorem histogram_sum (B : List Nat) (hbyte : ∀ b ∈ B, b < 256)
    (hlen : B.length < UNSIGNED_MOD) :
    ((List.range 256).map (sve2_frequency_count B)).sum = B.length := by
  have e : sve2_frequency_count B = fun i => B.count i := by
    funext i
    exact histogram_count B hlen i
  rw [e]
  exact sum_counts B 256 hbyte

theorem build_huffman_tree_weights (frequencies : Nat → Nat)
    (hne : ∃ i, i < 256 ∧ 0 < frequencies i) :
    ∃ root, build_huffman_tree frequencies = .ok root ∧ weights_ok root ∧
      root.frequency % UNSIGNED_MOD = ((List.range 256).map frequencies).sum % UNSIGNED_MOD ∧
      (root.frequency < UNSIGNED_MOD ∨ ∃ i, root = create_node i (frequencies i)) := by
  obtain ⟨root, he, ⟨hf, hw, hm, hlt⟩, hs⟩ := build_huffman_tree_spec
    (fun t => full t ∧ weights_ok t ∧
      t.frequency % UNSIGNED_MOD = leaf_sum t % UNSIGNED_MOD ∧
      (t.frequency < UNSIGNED_MOD ∨ ∃ i, t = create_node i (frequencies i)))
    leaf_sum
    (fun l r hl hr => ⟨full_merge l r hl.1 hr.1, weights_ok_merge l r hl.2.1 hr.2.1, by
      rw [leaf_sum_merge l r hl.1]
      show (l.frequency + r.frequency) % UNSIGNED_MOD % UNSIGNED_MOD = _
      rw [Nat.mod_mod, Nat.add_mod, hl.2.2.1, hr.2.2.1, ← Nat.add_mod],
      Or.inl (Nat.mod_lt _ (by decide))⟩)
    (fun l r hl _ => leaf_sum_merge l r hl.1)
    frequencies
    (fun i _ _ => ⟨full_create_node i _, Or.inl ⟨rfl, rfl⟩, by rw [leaf_sum_create_node]; rfl,
      Or.inr ⟨i, rfl⟩⟩)
    hne
  refine ⟨root, he, hw, ?_, hlt⟩
  rw [hm, hs]
  simp only [leaf_sum_create_node]
  rw [sum_symbols]

/-- C12. In the tree returned by `build_huffman_tree` every internal node weighs the sum of
its two children in 32-bit unsigned arithmetic; so for every byte buffer of length
`N < 2 ^ 32` the root of the returned tree weighs `N`, which is the sum of the 256 entries
of the frequency table. A tree is returned for every non-empty such buffer. -/
theorem internal_weights_are_sums :
    (∀ frequencies root, build_huffman_tree frequencies = .ok root → weights_ok root) ∧
    (∀ B : List Nat, (∀ b ∈ B, b < 256) → B.length < UNSIGNED_MOD →
      ((List.range 256).map (sve2_frequency_count B)).sum = B.length ∧
      (∀ root, build_huffman_tree (sve2_frequency_count B) = .ok root →
        root.frequency = B.length) ∧
      (B ≠ [] → ∃ root, build_huffman_tree (sve2_frequency_count B) = .ok root)) := by
  have key : ∀ frequencies root, build_huffman_tree frequencies = .ok root →
      weights_ok root ∧
      root.frequency % UNSIGNED_MOD =
        ((List.range 256).map frequencies).sum % UNSIGNED_MOD ∧
      (root.frequency < UNSIGNED_MOD ∨ ∃ i, root = create_node i (frequencies i)) := by
    intro frequencies root h
    by_cases hne : ∃ i, i < 256 ∧ 0 < frequencies i
    · obtain ⟨root', he, hw⟩ := build_huffman_tree_weights frequencies hne
      rw [h] at he
      injection he with he
      subst he
      exact hw
    · have hz : ∀ i, i < 256 → frequencies i = 0 := by
        intro i hi
        by_contra hc
        exact hne ⟨i, hi, by omega⟩
      rw [build_huffman_tree_empty frequencies hz] at h
      cases h
  refine ⟨fun frequencies root h => (key frequencies root h).1, ?_⟩
  intro B hbyte hlen
  have hsum := histogram_sum B hbyte hlen
  refine ⟨hsum, ?_, ?_⟩
  · intro root h
    obtain ⟨_, hm, hlt⟩ := key _ root h
    rw [hsum, Nat.mod_eq_of_lt hlen] at hm
    have hroot : root.frequency < UNSIGNED_MOD := by
      rcases hlt with hlt | ⟨i, hi⟩
      · exact hlt
      · rw [hi]
        show sve2_frequency_count B i < UNSIGNED_MOD
        exact Nat.mod_lt _ (by decide)
    rw [Nat.mod_eq_of_lt hroot] at hm
    exact hm
  · intro hne
    obtain ⟨root, he, _⟩ := build_of_buffer B hne hbyte hlen
    exact ⟨root, he⟩

set_option maxRecDepth 100000 in
/-- C12 at the buffer `[65, 66]`, whose tree has a root of weight 2. -/
theorem internal_weights_are_sums_witness :
    (∀ b ∈ [65, 66], b < 256) ∧ [65, 66].length < UNSIGNED_MOD ∧ [65, 66] ≠ [] ∧
    build_huffman_tree (sve2_frequency_count [65, 66]) =
      .ok (node 0 2 (node 65 1 null null) (node 66 1 null null)) ∧
    weights_ok (node 0 2 (node 65 1 null null) (node 66 1 null null)) ∧
    (node 0 2 (node 65 1 null null) (node 66 1 null null)).frequency = [65, 66].length ∧
    ((List.range 256).map (sve2_frequency_count [65, 66])).sum = [65, 66].length ∧
    ∃ root, build_huffman_tree (sve2_frequency_count [65, 66]) = .ok root :=
  have h : build_huffman_tree (sve2_frequency_count [65, 66]) =
      .ok (node 0 2 (node 65 1 null null) (node 66 1 null null)) := by rfl
  ⟨by decide, by decide, by decide, h,
    internal_weights_are_sums.1 _ _ h,
    (internal_weights_are_sums.2 [65, 66] (by decide) (by decide)).2.1 _ h,
    (internal_weights_are_sums.2 [65, 66] (by decide) (by decide)).1,
    (internal_weights_are_sums.2 [65, 66] (by decide) (by decide)).2.2 (by decide)⟩

/-- C19. For every non-empty byte buffer whose frequency table holds its exact counts, once
`build_huffman_tree` and `generate_codes` have run a code is assigned to a byte value if and
only if the byte value occurs in the buffer; hence the lookup `codes[file_data[i]]` of
`compress_file` finds an assigned code at every position, and the encoding loop never reads
through a `NULL` entry. -/
theorem code_assigned_iff_occurs (B : List Nat) (hne : B ≠ []) (hbyte : ∀ b ∈ B, b < 256)
    (hexact : ∀ i, i < 256 → sve2_frequency_count B i = B.count i) :
    (∃ codes, code_table B = .ok codes ∧ ∀ b, (codes b).isSome ↔ b ∈ B) ∧
    (∀ b ∈ B, (code_of B b).isSome) ∧
    (∃ bytes, (compress_file B).output = .ok bytes) := by
  have hpos : ∀ b ∈ B, 0 < sve2_frequency_count B b := by
    intro b hb
    rw [hexact b (hbyte b hb)]
    exact List.count_pos_iff.2 hb
  obtain ⟨b0, hb0⟩ := List.exists_mem_of_ne_nil B hne
  obtain ⟨root, he, _, hl⟩ := build_huffman_tree_full (sve2_frequency_count B)
    ⟨b0, hbyte b0 hb0, hpos b0 hb0⟩
  have hct := code_table_of_root B root he
  have hiff : ∀ b, (record [] (fun _ => none) (paths root) b).isSome ↔ b ∈ B := by
    intro b
    constructor
    · intro h
      by_contra hb
      have hnl : b ∉ leaves root := by
        intro hbl
        rw [hl.mem_iff, mem_symbols] at hbl
        rw [hexact b hbl.1] at hbl
        exact hb (List.count_pos_iff.1 hbl.2)
      rw [record_root_none root b hnl] at h
      cases h
    · intro hb
      have hbl : b ∈ leaves root := by
        rw [hl.mem_iff, mem_symbols]
        exact ⟨hbyte b hb, hpos b hb⟩
      obtain ⟨code, hc⟩ := record_root_leaf root b hbl
      rw [hc]
      rfl
  have hall : ∀ b ∈ B, (code_of B b).isSome := by
    intro b hb
    rw [code_of_eq B _ hct]
    exact (hiff b).2 hb
  refine ⟨⟨_, hct, hiff⟩, hall, ?_⟩
  obtain ⟨bytes, _, ho, _⟩ := compress_file_output B root he hall
  exact ⟨bytes, ho⟩

set_option maxRecDepth 100000 in
/-- C19 at the buffer `[65, 66]`. -/
theorem code_assigned_iff_occurs_witness :
    [65, 66] ≠ [] ∧ (∀ b ∈ [65, 66], b < 256) ∧
    (∀ i, i < 256 → sve2_frequency_count [65, 66] i = [65, 66].count i) ∧
    (∃ codes, code_table [65, 66] = .ok codes ∧ ∀ b, (codes b).isSome ↔ b ∈ [65, 66]) ∧
    (∀ b ∈ [65, 66], (code_of [65, 66] b).isSome) ∧
    (∃ bytes, (compress_file [65, 66]).output = .ok bytes) :=
  ⟨by decide, by decide, by decide,
    code_assigned_iff_occurs [65, 66] (by decide) (by decide) (by decide)⟩

/-! ### Buffer bounds, tie-break, depths of leaves (C14, C16) -/

theorem write_indices_lt (t : HuffmanNode) :
    ∀ depth, ∀ i ∈ write_indices t depth, i < depth + levels t := by
  induction t with
  | null => intro depth i hi; simp [write_indices] at hi
  | node d f l r ihl ihr =>
    intro depth i hi
    simp only [write_indices] at hi
    simp only [levels]
    split at hi
    · simp at hi; omega
    · simp only [List.mem_cons, List.mem_append] at hi
      rcases hi with (rfl | hi) | (rfl | hi)
      · omega
      · have := ihl (depth + 1) i hi; omega
      · omega
      · have := ihr (depth + 1) i hi; omega

theorem paths_length (t : HuffmanNode) : ∀ x ∈ paths t, x.2.length + 1 ≤ levels t := by
  induction t with
  | null => intro x hx; simp [paths] at hx
  | node d f l r ihl ihr =>
    intro x hx
    simp only [paths] at hx
    simp only [levels]
    split at hx
    · simp at hx; subst hx; simp
    · rw [List.mem_append, List.mem_map, List.mem_map] at hx
      rcases hx with ⟨y, hy, rfl⟩ | ⟨y, hy, rfl⟩
      · have := ihl y hy
        simp only [List.length_cons]
        omega
      · have := ihr y hy
        simp only [List.length_cons]
        omega

/-- C14. For every frequency table, every write `buffer[depth]` that `generate_codes`
performs on the tree from `build_huffman_tree`, the write of the terminator included, uses
an index of at most 255 and so stays inside the 256-character buffer of `compress_file`;
`generate_codes` runs to completion, and every code it produces is a complete root-to-leaf
path of length at most 255: no code is truncated. -/
theorem codes_fit_buffer (frequencies : Nat → Nat) :
    (∀ root, build_huffman_tree frequencies = .ok root →
      (∀ i ∈ write_indices root 0, i ≤ 255) ∧
      ∃ codes buffer, generate_codes root (fun _ => none) (fun _ => NUL) 0 =
          .ok (codes, buffer) ∧
        ∀ b code, codes b = some code → code.length ≤ 255 ∧ (b, code) ∈ paths root) ∧
    ((∃ i, i < 256 ∧ 0 < frequencies i) →
      ∃ root, build_huffman_tree frequencies = .ok root) := by
  constructor
  · intro root h
    have hlev := (build_huffman_tree_levels frequencies root h).2.2
    unfold BUFFER_SIZE at hlev
    constructor
    · intro i hi
      have := write_indices_lt root 0 i hi
      omega
    · obtain ⟨buffer, he⟩ := generate_codes_root root hlev
      refine ⟨_, buffer, he, ?_⟩
      intro b code hc
      have hp := record_root_some root b code hc
      have := paths_length root _ hp
      exact ⟨by simp only [] at this; omega, hp⟩
  · intro hne
    obtain ⟨root, he, _⟩ := build_huffman_tree_full frequencies hne
    exact ⟨root, he⟩

set_option maxRecDepth 100000 in
/-- C14 at the frequency table of a buffer with the two byte values 65 and 66. -/
theorem codes_fit_buffer_witness :
    (∃ i, i < 256 ∧ 0 < sample_histogram i) ∧
    ∃ root, build_huffman_tree sample_histogram = .ok root ∧
      (∀ i ∈ write_indices root 0, i ≤ 255) ∧
      ∃ codes buffer, generate_codes root (fun _ => none) (fun _ => NUL) 0 =
          .ok (codes, buffer) ∧
        ∀ b code, codes b = some code → code.length ≤ 255 ∧ (b, code) ∈ paths root := by
  have hne : ∃ i, i < 256 ∧ 0 < sample_histogram i := ⟨65, by decide, by decide⟩
  obtain ⟨root, h⟩ := (codes_fit_buffer sample_histogram).2 hne
  exact ⟨hne, root, h, (codes_fit_buffer sample_histogram).1 root h⟩

/-- C16. Tie-break of `extract_min`: at a sift-down step at index `i` with both children
present, the child used for the comparison and the swap is the left child `2 * i + 1`
unless the right child is strictly lighter; with equal weights it is the left child. The
element at `i` is not swapped, and the loop ends, when it is no heavier than the chosen
child; otherwise it is swapped with the chosen child and the loop goes on from there. -/
theorem sift_down_tie_break (size : Nat) (nodes : Nat → HuffmanNode) (i : Nat)
    (h : 2 * i + 2 < size) :
    (pick_child size nodes i = 2 * i + 2 ↔
      (nodes (2 * i + 2)).frequency < (nodes (2 * i + 1)).frequency) ∧
    (pick_child size nodes i = 2 * i + 1 ↔
      (nodes (2 * i + 1)).frequency ≤ (nodes (2 * i + 2)).frequency) ∧
    ((nodes (2 * i + 1)).frequency = (nodes (2 * i + 2)).frequency →
      pick_child size nodes i = 2 * i + 1) ∧
    (∀ fuel, (nodes i).frequency ≤ (nodes (pick_child size nodes i)).frequency →
      sift_down size (fuel + 1) i nodes = nodes) ∧
    (∀ fuel, ¬ (nodes i).frequency ≤ (nodes (pick_child size nodes i)).frequency →
      sift_down size (fuel + 1) i nodes =
        sift_down size fuel (pick_child size nodes i)
          (store (store nodes i (nodes (pick_child size nodes i)))
            (pick_child size nodes i) (nodes i))) := by
  have hlt : 2 * i + 1 < size := by omega
  have hcases := pick_child_cases size nodes i
  refine ⟨?_, ?_, ?_, ?_, ?_⟩
  · rcases hcases with ⟨hc, hle⟩ | ⟨hc, _, hl⟩
    · rw [hc]
      have := hle h
      constructor
      · intro h1; omega
      · intro h1; omega
    · rw [hc]
      exact ⟨fun _ => hl, fun _ => rfl⟩
  · rcases hcases with ⟨hc, hle⟩ | ⟨hc, _, hl⟩
    · rw [hc]
      exact ⟨fun _ => hle h, fun _ => rfl⟩
    · rw [hc]
      constructor
      · intro h1; omega
      · intro h1; omega
  · intro heq
    rcases hcases with ⟨hc, _⟩ | ⟨_, _, hl⟩
    · exact hc
    · omega
  · intro fuel hle
    rw [sift_down]
    simp [hlt, hle]
  · intro fuel hnle
    rw [sift_down]
    simp [hlt, hnle]

/-- C16 at the root of the sample queue, whose children weigh 2 and 3. -/
theorem sift_down_tie_break_witness :
    2 * 0 + 2 < 3 ∧ pick_child 3 sample_queue.nodes 0 = 2 * 0 + 1 ∧
    ((sample_queue.nodes (2 * 0 + 1)).frequency = (sample_queue.nodes (2 * 0 + 2)).frequency →
      pick_child 3 sample_queue.nodes 0 = 2 * 0 + 1) :=
  ⟨by decide,
    (sift_down_tie_break 3 sample_queue.nodes 0 (by decide)).2.1.2 (by decide),
    (sift_down_tie_break 3 sample_queue.nodes 0 (by decide)).2.2.1⟩

theorem leaf_depths_paths (t : HuffmanNode) :
    ∀ depth, leaf_depths t depth = (paths t).map (fun p => (p.1, depth + p.2.length)) := by
  induction t with
  | null => intro depth; rfl
  | node d f l r ihl ihr =>
    intro depth
    simp only [leaf_depths, paths]
    split
    · simp
    · rw [ihl, ihr, List.map_append, List.map_map, List.map_map]
      congr 1
      · apply List.map_congr_left
        intro p _
        simp only [Function.comp, List.length_cons]
        congr 1
        omega
      · apply List.map_congr_left
        intro p _
        simp only [Function.comp, List.length_cons]
        congr 1
        omega

theorem leaves_left_chain (n : Nat) : leaves (left_chain n) = [7] := by
  induction n with
  | zero => rfl
  | succ n ih =>
    have hne : left_chain n ≠ null := by
      cases n <;> simp [left_chain]
    simp [left_chain, leaves, hne, ih]

set_option maxRecDepth 100000 in
/-- The tree `left_chain 256` has a single leaf and 257 levels: with the 256-character buffer
of `compress_file`, `generate_codes` called with depth 0 on it reaches `depth = 256` and
writes past the buffer. `build_huffman_tree` never returns such a tree. -/
theorem deep_tree_overflows_buffer :
    (leaves (left_chain 256)).Nodup ∧
    generate_codes (left_chain 256) (fun _ => none) (fun _ => NUL) 0 =
      .error Fault.buffer_overflow := by
  constructor
  · rw [leaves_left_chain]
    exact List.nodup_singleton 7
  · rfl

/-! ### Positions in a tree and depth against weight -/

theorem descend_null (p : List Bool) : descend null p = null := by
  cases p <;> rfl

theorem descend_append (t : HuffmanNode) (p : List Bool) (b : Bool) :
    descend t (p ++ [b]) = child b (descend t p) := by
  induction p generalizing t with
  | nil =>
    cases t <;> cases b <;> simp [descend, child, HuffmanNode.left, HuffmanNode.right]
  | cons c p ih =>
    cases t with
    | null =>
      rw [List.cons_append, descend_null, descend_null]
      cases b <;> rfl
    | node d f l r =>
      cases c
      · exact ih l
      · exact ih r

theorem child_ne_null (b : Bool) (n : HuffmanNode) (h : child b n ≠ null) : internal n := by
  cases n with
  | null => cases b <;> exact absurd rfl h
  | node d f l r =>
    refine ⟨by simp, ?_⟩
    intro hl
    cases b
    · exact h hl.1
    · exact h hl.2

theorem exact_descend (t : HuffmanNode) (h : exact t) : ∀ p, exact (descend t p) := by
  induction t with
  | null => intro p; rw [descend_null]; exact h
  | node d f l r ihl ihr =>
    intro p
    cases p with
    | nil => exact h
    | cons b p =>
      rcases h with ⟨hl, hr⟩ | ⟨_, hl, hr⟩
      · subst hl; subst hr
        cases b <;> (show exact (descend null p); rw [descend_null]; trivial)
      · cases b
        · exact ihl hl p
        · exact ihr hr p

theorem weight_le_root (t : HuffmanNode) (h : exact t) :
    ∀ p, (descend t p).frequency ≤ t.frequency := by
  induction t with
  | null => intro p; rw [descend_null]
  | node d f l r ihl ihr =>
    intro p
    cases p with
    | nil => exact le_refl _
    | cons b p =>
      rcases h with ⟨hl, hr⟩ | ⟨hf, hl, hr⟩
      · subst hl; subst hr
        cases b <;>
          (show (descend null p).frequency ≤ _; rw [descend_null]; exact Nat.zero_le _)
      · cases b
        · have := ihl hl p
          show (descend l p).frequency ≤ f
          omega
        · have := ihr hr p
          show (descend r p).frequency ≤ f
          omega

theorem exact_internal (n : HuffmanNode) (h : exact n) (hi : internal n) :
    n.frequency = (fork_of n).1 + (fork_of n).2 := by
  cases n with
  | null => exact absurd rfl hi.1
  | node d f l r =>
    rcases h with hleaf | ⟨hf, _, _⟩
    · exact absurd hleaf hi.2
    · exact hf

theorem fork_mem (t : HuffmanNode) :
    ∀ p, internal (descend t p) → fork_of (descend t p) ∈ forks t := by
  induction t with
  | null => intro p h; rw [descend_null] at h; exact absurd rfl h.1
  | node d f l r ihl ihr =>
    intro p h
    by_cases hleaf : l = null ∧ r = null
    · exfalso
      cases p with
      | nil => exact h.2 hleaf
      | cons b p =>
        obtain ⟨hl, hr⟩ := hleaf
        subst hl; subst hr
        cases b <;> exact h.1 (descend_null p)
    · simp only [forks, if_neg hleaf]
      cases p with
      | nil => exact List.mem_cons_self _ _
      | cons b p =>
        apply List.mem_cons_of_mem
        cases b
        · exact List.mem_append_left _ (ihl p h)
        · exact List.mem_append_right _ (ihr p h)

theorem pair_le_of_mem (x y : Nat × Nat) (A B : List (Nat × Nat)) (hx : x ∈ A) (hy : y ∈ B) :
    x ::ₘ y ::ₘ 0 ≤ ((A ++ B : List (Nat × Nat)) : Multiset (Nat × Nat)) := by
  have h1 : ({x} : Multiset (Nat × Nat)) ≤ (A : Multiset (Nat × Nat)) :=
    Multiset.singleton_le.2 hx
  have h2 : ({y} : Multiset (Nat × Nat)) ≤ (B : Multiset (Nat × Nat)) :=
    Multiset.singleton_le.2 hy
  have h3 := add_le_add h1 h2
  rw [Multiset.coe_add] at h3
  exact h3

theorem pair_swap (x y : Nat × Nat) :
    (x ::ₘ y ::ₘ 0 : Multiset (Nat × Nat)) = y ::ₘ x ::ₘ 0 := Multiset.cons_swap x y 0

theorem fork_pair (t : HuffmanNode) :
    ∀ p1 p2, p1 ≠ p2 → internal (descend t p1) → internal (descend t p2) →
      fork_of (descend t p1) ::ₘ fork_of (descend t p2) ::ₘ 0 ≤
        ((forks t : List (Nat × Nat)) : Multiset (Nat × Nat)) := by
  induction t with
  | null => intro p1 p2 _ h; rw [descend_null] at h; exact absurd rfl h.1
  | node d f l r ihl ihr =>
    intro p1 p2 hne h1 h2
    by_cases hleaf : l = null ∧ r = null
    · exfalso
      cases p1 with
      | nil => exact h1.2 hleaf
      | cons b p =>
        obtain ⟨hl, hr⟩ := hleaf
        subst hl; subst hr
        cases b <;> exact h1.1 (descend_null p)
    · simp only [forks, if_neg hleaf]
      have hsub1 : ((forks l : List (Nat × Nat)) : Multiset (Nat × Nat)) ≤
          (((l.frequency, r.frequency) :: (forks l ++ forks r) : List (Nat × Nat)) :
            Multiset (Nat × Nat)) := by
        rw [← Multiset.cons_coe, ← Multiset.coe_add]
        exact le_trans (Multiset.le_add_right _ _) (Multiset.le_cons_self _ _)
      have hsub2 : ((forks r : List (Nat × Nat)) : Multiset (Nat × Nat)) ≤
          (((l.frequency, r.frequency) :: (forks l ++ forks r) : List (Nat × Nat)) :
            Multiset (Nat × Nat)) := by
        rw [← Multiset.cons_coe, ← Multiset.coe_add]
        exact le_trans (Multiset.le_add_left _ _) (Multiset.le_cons_self _ _)
      have hsub3 : (((forks l ++ forks r) : List (Nat × Nat)) : Multiset (Nat × Nat)) ≤
          (((l.frequency, r.frequency) :: (forks l ++ forks r) : List (Nat × Nat)) :
            Multiset (Nat × Nat)) := by
        rw [← Multiset.cons_coe]
        exact Multiset.le_cons_self _ _
      have hhead : ∀ b p, internal (descend (node d f l r) (b :: p)) →
          fork_of (descend (node d f l r) []) ::ₘ
            fork_of (descend (node d f l r) (b :: p)) ::ₘ 0 ≤
          (((l.frequency, r.frequency) :: (forks l ++ forks r) : List (Nat × Nat)) :
            Multiset (Nat × Nat)) := by
        intro b p hi
        rw [← Multiset.cons_coe]
        apply Multiset.cons_le_cons
        apply Multiset.singleton_le.2
        rw [Multiset.mem_coe]
        cases b
        · exact List.mem_append_left _ (fork_mem l p hi)
        · exact List.mem_append_right _ (fork_mem r p hi)
      cases p1 with
      | nil =>
        cases p2 with
        | nil => exact absurd rfl hne
        | cons b2 q2 => exact hhead b2 q2 h2
      | cons b1 q1 =>
        cases p2 with
        | nil =>
          rw [pair_swap]
          exact hhead b1 q1 h1
        | cons b2 q2 =>
          cases b1 <;> cases b2
          · exact le_trans (ihl q1 q2 (fun h => hne (by rw [h])) h1 h2) hsub1
          · exact le_trans (pair_le_of_mem _ _ _ _ (fork_mem l q1 h1) (fork_mem r q2 h2)) hsub3
          · rw [pair_swap]
            exact le_trans (pair_le_of_mem _ _ _ _ (fork_mem l q2 h2) (fork_mem r q1 h1)) hsub3
          · exact le_trans (ihr q1 q2 (fun h => hne (by rw [h])) h1 h2) hsub2

/-- In a tree whose internal nodes weigh exactly the sum of their children and are merged in
the order of their children's weights, a strictly lighter node is never nearer to the root
than a heavier one. -/
theorem depth_antitone (t : HuffmanNode) (hex : exact t)
    (hord : merge_ordered ((forks t : List (Nat × Nat)) : Multiset (Nat × Nat))) :
    ∀ n v u, v.length = n → descend t u ≠ null → descend t v ≠ null →
      (descend t u).frequency < (descend t v).frequency → v.length ≤ u.length := by
  intro n
  induction n with
  | zero => intro v u hv _ _ _; omega
  | succ n ih =>
    intro v u hv hu hvn hlt
    rcases List.eq_nil_or_concat v with hnil | ⟨pv, bv, hpv⟩
    · subst hnil; simp
    · rcases List.eq_nil_or_concat u with hunil | ⟨pu, bu, hpu⟩
      · subst hunil
        have := weight_le_root t hex v
        simp only [descend] at hlt
        omega
      · rw [List.concat_eq_append] at hpv hpu
        subst hpv; subst hpu
        rw [descend_append] at hu hvn hlt
        rw [descend_append] at hlt
        have hiu := child_ne_null bu _ hu
        have hiv := child_ne_null bv _ hvn
        simp only [List.length_append, List.length_singleton] at hv ⊢
        by_cases hpp : pu = pv
        · rw [hpp]
        · have hpair := fork_pair t pu pv hpp hiu hiv
          have hlf := hord _ _ hpair
          have hwu := exact_internal _ (exact_descend t hex pu) hiu
          have hwv := exact_internal _ (exact_descend t hex pv) hiv
          have hprem : (fork_of (descend t pu)).1 < (fork_of (descend t pv)).1 ∨
              (fork_of (descend t pu)).1 < (fork_of (descend t pv)).2 ∨
              (fork_of (descend t pu)).2 < (fork_of (descend t pv)).1 ∨
              (fork_of (descend t pu)).2 < (fork_of (descend t pv)).2 := by
            cases bu <;> cases bv
            · exact Or.inl hlt
            · exact Or.inr (Or.inl hlt)
            · exact Or.inr (Or.inr (Or.inl hlt))
            · exact Or.inr (Or.inr (Or.inr hlt))
          have hsum := hlf hprem
          have := ih pv pu (by omega) hiu.1 hiv.1 (by omega)
          omega

/-! ### The forest of the merging loop -/

theorem merge_step_min (q : PriorityQueue) (h2 : 2 ≤ q.size) (hc : q.size ≤ q.capacity)
    (hh : q.is_heap) :
    ∃ l r rest q', merge_step q = .ok q' ∧ q'.size + 1 = q.size ∧ q'.capacity = q.capacity ∧
      q.items = l ::ₘ r ::ₘ rest ∧ q'.items = merge l r ::ₘ rest ∧ q'.is_heap ∧
      (∀ x ∈ l ::ₘ r ::ₘ rest, l.frequency ≤ x.frequency) ∧
      (∀ x ∈ r ::ₘ rest, r.frequency ≤ x.frequency) := by
  obtain ⟨q1, he1, hs1, hc1, hi1, hh1⟩ := extract_min_spec q (by omega)
  obtain ⟨q2, he2, hs2, hc2, hi2, hh2⟩ := extract_min_spec q1 (by omega)
  obtain ⟨q3, he3, hs3, hc3, hi3, hh3⟩ :=
    insert_node_spec q2 (merge (q.nodes 0) (q1.nodes 0)) (by omega)
  refine ⟨q.nodes 0, q1.nodes 0, q2.items, q3, ?_, by omega, by omega, ?_, hi3,
    hh3 (hh2 (hh1 hh)), ?_, ?_⟩
  · rw [merge_step, he1]
    simp only []
    rw [he2]
    exact he3
  · rw [hi1, hi2]
  · intro x hx
    rw [← hi2, ← hi1] at hx
    obtain ⟨j, hj, rfl⟩ := (mem_bag _ _ _).1 hx
    exact heap_root_le q.size q.nodes hh j hj
  · intro x hx
    rw [← hi2] at hx
    obtain ⟨j, hj, rfl⟩ := (mem_bag _ _ _).1 hx
    exact heap_root_le q1.size q1.nodes (hh1 hh) j hj

/-- The merging loop keeps every property of the forest that is kept when the two lightest
trees are replaced by their merge. -/
theorem merge_loop_forest (I : Multiset HuffmanNode → Prop)
    (hI : ∀ l r rest, I (l ::ₘ r ::ₘ rest) →
      (∀ x ∈ l ::ₘ r ::ₘ rest, l.frequency ≤ x.frequency) →
      (∀ x ∈ r ::ₘ rest, r.frequency ≤ x.frequency) → I (merge l r ::ₘ rest)) :
    ∀ fuel q, q.size ≤ fuel → 1 ≤ q.size → q.size ≤ q.capacity → q.is_heap → I q.items →
      ∃ q', merge_loop fuel q = .ok q' ∧ q'.size = 1 ∧ I q'.items := by
  intro fuel
  induction fuel with
  | zero => intro q h0 h1; omega
  | succ fuel ih =>
    intro q hf h1 hc hh hinv
    rw [merge_loop]
    by_cases hs : q.size > 1
    · obtain ⟨l, r, rest, q', he, hs', hc', hi, hi', hh', hl, hr⟩ :=
        merge_step_min q hs hc hh
      have hinv' : I q'.items := by
        rw [hi']
        rw [hi] at hinv
        exact hI l r rest hinv hl hr
      obtain ⟨q'', he'', hs'', hinv''⟩ :=
        ih q' (by omega) (by omega) (by omega) hh' hinv'
      exact ⟨q'', by simp [hs, he, he''], hs'', hinv''⟩
    · exact ⟨q, by simp [hs], by omega, hinv⟩

/-- For a table with a nonzero entry `build_huffman_tree` returns a root, and a property of
forests that holds for the leaves and is kept by merging the two lightest trees holds for
the forest made of the root alone. -/
theorem build_huffman_tree_forest (I : Multiset HuffmanNode → Prop)
    (hI : ∀ l r rest, I (l ::ₘ r ::ₘ rest) →
      (∀ x ∈ l ::ₘ r ::ₘ rest, l.frequency ≤ x.frequency) →
      (∀ x ∈ r ::ₘ rest, r.frequency ≤ x.frequency) → I (merge l r ::ₘ rest))
    (frequencies : Nat → Nat)
    (h0 : I ((symbols frequencies 256).map (fun i => create_node i (frequencies i)) :
      Multiset HuffmanNode))
    (hne : ∃ i, i < 256 ∧ 0 < frequencies i) :
    ∃ root, build_huffman_tree frequencies = .ok root ∧ I (root ::ₘ 0) := by
  obtain ⟨q, he, hc, hs, hi, hh⟩ :=
    insert_leaves_spec frequencies (create_priority_queue 256) 256 (by decide)
  have hlen := symbols_length_le frequencies 256
  have hpos : 0 < (symbols frequencies 256).length := by
    obtain ⟨i, hi1, hi2⟩ := hne
    exact List.length_pos_of_mem ((mem_symbols frequencies 256 i).2 ⟨hi1, hi2⟩)
  have hs' : q.size = (symbols frequencies 256).length := by
    rw [hs]; simp [create_priority_queue]
  have hi' : q.items = ((symbols frequencies 256).map
      (fun i => create_node i (frequencies i)) : Multiset HuffmanNode) := by
    rw [hi]; simp [create_priority_queue, PriorityQueue.items, bag_zero]
  have hc' : q.capacity = 256 := by rw [hc]; rfl
  have hheap : q.is_heap := hh (fun i hi => absurd hi (Nat.not_lt_zero i))
  obtain ⟨q', he', hs1, hinv⟩ :=
    merge_loop_forest I hI q.size q (le_refl _) (by omega) (by omega) hheap (by rw [hi']; exact h0)
  obtain ⟨q'', he'', hs'', _, hi'', _⟩ := extract_min_spec q' (by omega)
  have hz : q''.items = 0 := by
    have : q''.size = 0 := by omega
    simp [PriorityQueue.items, this, bag_zero]
  refine ⟨q'.nodes 0, ?_, ?_⟩
  · unfold build_huffman_tree
    rw [he]
    simp only []
    rw [he']
    simp only []
    rw [he'']
  · rw [hi'', hz] at hinv
    exact hinv

theorem pair_le_cons (x y z : Nat × Nat) (M : Multiset (Nat × Nat))
    (h : x ::ₘ y ::ₘ 0 ≤ z ::ₘ M) :
    x ::ₘ y ::ₘ 0 ≤ M ∨ (x = z ∧ y ∈ M) ∨ (y = z ∧ x ∈ M) := by
  by_cases hx : x = z
  · subst hx
    right; left
    refine ⟨rfl, ?_⟩
    have := (Multiset.cons_le_cons_iff x).1 h
    exact Multiset.singleton_le.1 this
  · by_cases hy : y = z
    · subst hy
      right; right
      refine ⟨rfl, ?_⟩
      rw [pair_swap] at h
      have := (Multiset.cons_le_cons_iff y).1 h
      exact Multiset.singleton_le.1 this
    · left
      apply (Multiset.le_cons_of_not_mem _).1 h
      intro hz
      simp only [Multiset.mem_cons, Multiset.not_mem_zero, or_false] at hz
      rcases hz with hz | hz
      · exact hx hz.symm
      · exact hy hz.symm

theorem forks_merge (l r : HuffmanNode) (hl : full l) :
    forks (merge l r) = (l.frequency, r.frequency) :: (forks l ++ forks r) := by
  have := full_ne_null l hl
  simp [merge, forks, this]

theorem forkbag_merge (l r : HuffmanNode) (rest : Multiset HuffmanNode) (hl : full l) :
    forkbag (merge l r ::ₘ rest) =
      (l.frequency, r.frequency) ::ₘ forkbag (l ::ₘ r ::ₘ rest) := by
  unfold forkbag
  rw [Multiset.cons_bind, Multiset.cons_bind, Multiset.cons_bind, forks_merge l r hl,
    ← Multiset.cons_coe, ← Multiset.coe_add, Multiset.cons_add, add_assoc]

theorem greedy_forest_step (l r : HuffmanNode) (rest : Multiset HuffmanNode)
    (h : greedy_forest (l ::ₘ r ::ₘ rest))
    (hl : ∀ x ∈ l ::ₘ r ::ₘ rest, l.frequency ≤ x.frequency)
    (hr : ∀ x ∈ r ::ₘ rest, r.frequency ≤ x.frequency) :
    greedy_forest (merge l r ::ₘ rest) := by
  obtain ⟨ha, hb, hc, hd⟩ := h
  have hfl := (ha l (Multiset.mem_cons_self _ _)).1
  have hel := (ha l (Multiset.mem_cons_self _ _)).2
  have hr_mem : r ∈ l ::ₘ r ::ₘ rest := Multiset.mem_cons_of_mem (Multiset.mem_cons_self _ _)
  have hfr := (ha r hr_mem).1
  have her := (ha r hr_mem).2
  simp only [Multiset.map_cons, Multiset.sum_cons] at hb
  have hsum : (l.frequency + r.frequency) % UNSIGNED_MOD = l.frequency + r.frequency :=
    Nat.mod_eq_of_lt (by omega)
  have hmf : (merge l r).frequency = l.frequency + r.frequency := hsum
  have hlr : l.frequency ≤ r.frequency := hl r hr_mem
  refine ⟨?_, ?_, ?_, ?_⟩
  · intro T hT
    rcases Multiset.mem_cons.1 hT with rfl | hT
    · exact ⟨full_merge l r hfl hfr, Or.inr ⟨hsum, hel, her⟩⟩
    · exact ha T (Multiset.mem_cons_of_mem (Multiset.mem_cons_of_mem hT))
  · simp only [Multiset.map_cons, Multiset.sum_cons]
    rw [hmf]
    omega
  · rw [forkbag_merge l r rest hfl]
    intro x y hxy
    rcases pair_le_cons x y _ _ hxy with hold | ⟨hx, hy⟩ | ⟨hy, hx⟩
    · exact hc x y hold
    · subst hx
      have h1 := hd y hy l (Multiset.mem_cons_self _ _)
      have h2 := hd y hy r hr_mem
      intro hprem
      simp only [] at hprem ⊢
      omega
    · subst hy
      have h1 := hd x hx l (Multiset.mem_cons_self _ _)
      have h2 := hd x hx r hr_mem
      intro hprem
      simp only [] at hprem ⊢
      omega
  · rw [forkbag_merge l r rest hfl]
    intro x hx T hT
    rcases Multiset.mem_cons.1 hx with rfl | hx
    · rcases Multiset.mem_cons.1 hT with rfl | hT
      · rw [hmf]
        simp only []
        omega
      · have h1 := hl T (Multiset.mem_cons_of_mem (Multiset.mem_cons_of_mem hT))
        have h2 := hr T (Multiset.mem_cons_of_mem hT)
        exact ⟨h1, h2⟩
    · rcases Multiset.mem_cons.1 hT with rfl | hT
      · have h1 := hd x hx l (Multiset.mem_cons_self _ _)
        rw [hmf]
        omega
      · exact hd x hx T (Multiset.mem_cons_of_mem (Multiset.mem_cons_of_mem hT))

theorem forkbag_leaves (g : Nat → Nat) (l : List Nat) :
    forkbag ((l.map (fun i => create_node i (g i)) : List HuffmanNode) :
      Multiset HuffmanNode) = 0 := by
  induction l with
  | nil => rfl
  | cons a l ih =>
    rw [List.map_cons, ← Multiset.cons_coe]
    unfold forkbag at ih ⊢
    rw [Multiset.cons_bind, ih]
    simp [create_node, forks]

theorem greedy_forest_leaves (frequencies : Nat → Nat)
    (hsum : ((List.range 256).map frequencies).sum < UNSIGNED_MOD) :
    greedy_forest ((symbols frequencies 256).map (fun i => create_node i (frequencies i)) :
      Multiset HuffmanNode) := by
  refine ⟨?_, ?_, ?_, ?_⟩
  · intro T hT
    simp only [Multiset.mem_coe, List.mem_map] at hT
    obtain ⟨i, _, rfl⟩ := hT
    exact ⟨full_create_node i _, Or.inl ⟨rfl, rfl⟩⟩
  · rw [Multiset.map_coe, Multiset.sum_coe, List.map_map]
    have : (HuffmanNode.frequency ∘ fun i => create_node i (frequencies i)) = frequencies := rfl
    rw [this, sum_symbols]
    exact hsum
  · rw [forkbag_leaves]
    intro x y hxy
    have := Multiset.le_zero.1 hxy
    exact absurd this (Multiset.cons_ne_zero)
  · rw [forkbag_leaves]
    intro x hx
    exact absurd hx (Multiset.not_mem_zero x)

/-- For a table whose entries sum to less than `2 ^ 32` and are not all zero, the tree
returned by `build_huffman_tree` has exact weights and its internal nodes are merged in the
order of their children's weights. -/
theorem build_huffman_tree_greedy (frequencies : Nat → Nat)
    (hsum : ((List.range 256).map frequencies).sum < UNSIGNED_MOD)
    (hne : ∃ i, i < 256 ∧ 0 < frequencies i) :
    ∃ root, build_huffman_tree frequencies = .ok root ∧ exact root ∧
      merge_ordered ((forks root : List (Nat × Nat)) : Multiset (Nat × Nat)) := by
  obtain ⟨root, he, ha, _, hc, _⟩ := build_huffman_tree_forest greedy_forest
    greedy_forest_step frequencies (greedy_forest_leaves frequencies hsum) hne
  refine ⟨root, he, (ha root (Multiset.mem_cons_self _ _)).2, ?_⟩
  have e : forkbag (root ::ₘ 0) =
      ((forks root : List (Nat × Nat)) : Multiset (Nat × Nat)) := by
    unfold forkbag
    rw [Multiset.cons_bind, Multiset.zero_bind, add_zero]
  rw [← e]
  exact hc

/-! ### Code lengths against frequencies (C17) -/

theorem paths_descend (t : HuffmanNode) :
    ∀ d p, (d, p) ∈ paths t →
      ∃ f, descend t (code_bits p) = node d f null null ∧ (d, f) ∈ leaf_nodes t := by
  induction t with
  | null => intro d p h; simp [paths] at h
  | node d0 f0 l r ihl ihr =>
    intro d p h
    simp only [paths] at h
    by_cases hleaf : l = null ∧ r = null
    · rw [if_pos hleaf, List.mem_singleton] at h
      injection h with h1 h2
      subst h1; subst h2
      obtain ⟨hl, hr⟩ := hleaf
      subst hl; subst hr
      exact ⟨f0, rfl, by simp [leaf_nodes]⟩
    · rw [if_neg hleaf, List.mem_append, List.mem_map, List.mem_map] at h
      simp only [leaf_nodes, if_neg hleaf]
      rcases h with ⟨x, hx, hxe⟩ | ⟨x, hx, hxe⟩
      · injection hxe with h1 h2
        subst h1; subst h2
        obtain ⟨f, hf, hm⟩ := ihl x.1 x.2 hx
        refine ⟨f, ?_, List.mem_append_left _ hm⟩
        simpa [code_bits, descend] using hf
      · injection hxe with h1 h2
        subst h1; subst h2
        obtain ⟨f, hf, hm⟩ := ihr x.1 x.2 hx
        refine ⟨f, ?_, List.mem_append_right _ hm⟩
        simpa [code_bits, descend] using hf

theorem code_bits_length (code : List Char) : (code_bits code).length = code.length := by
  simp [code_bits]

/-- C17. More frequent symbols never get longer codes: for every byte buffer of fewer than
`2 ^ 32` bytes and any two byte values `a` and `b` that occur in it, both have a code, and
if `a` occurs strictly more often than `b` then the code of `a` is no longer than the code
of `b`. -/
theorem frequent_symbols_get_shorter_codes (B : List Nat) (hbyte : ∀ x ∈ B, x < 256)
    (hlen : B.length < UNSIGNED_MOD) (a b : Nat) (ha : a ∈ B) (hb : b ∈ B)
    (hgt : B.count b < B.count a) :
    ∃ ca cb, code_of B a = some ca ∧ code_of B b = some cb ∧ ca.length ≤ cb.length := by
  have hne : B ≠ [] := List.ne_nil_of_mem ha
  have hsum : ((List.range 256).map (sve2_frequency_count B)).sum < UNSIGNED_MOD := by
    rw [histogram_sum B hbyte hlen]; exact hlen
  obtain ⟨b0, hb0⟩ := List.exists_mem_of_ne_nil B hne
  have hpos : 0 < sve2_frequency_count B b0 := by
    rw [histogram_count B hlen]
    exact List.count_pos_iff.2 hb0
  have hnz : ∃ i, i < 256 ∧ 0 < sve2_frequency_count B i := ⟨b0, hbyte b0 hb0, hpos⟩
  obtain ⟨root, he, hex, hord⟩ := build_huffman_tree_greedy (sve2_frequency_count B) hsum hnz
  obtain ⟨root1, he1, _, hperm⟩ := build_huffman_tree_leaf_nodes (sve2_frequency_count B) hnz
  obtain ⟨root2, he2, hleaf⟩ := build_of_buffer B hne hbyte hlen
  rw [he] at he1 he2
  injection he1 with he1
  injection he2 with he2
  subst he1; subst he2
  have hct := code_table_of_root B root he
  obtain ⟨ca, hca⟩ := record_root_leaf root a (hleaf a ha)
  obtain ⟨cb, hcb⟩ := record_root_leaf root b (hleaf b hb)
  refine ⟨ca, cb, by rw [code_of_eq B _ hct]; exact hca, by rw [code_of_eq B _ hct]; exact hcb,
    ?_⟩
  obtain ⟨fa, hda, hma⟩ := paths_descend root a ca (record_root_some root a ca hca)
  obtain ⟨fb, hdb, hmb⟩ := paths_descend root b cb (record_root_some root b cb hcb)
  have hweight : ∀ d f, (d, f) ∈ leaf_nodes root → f = B.count d := by
    intro d f hdf
    rw [hperm.mem_iff, List.mem_map] at hdf
    obtain ⟨i, _, hi⟩ := hdf
    have h1 : i = d := congrArg Prod.fst hi
    have h2 : sve2_frequency_count B i = f := congrArg Prod.snd hi
    rw [← h2, ← h1, histogram_count B hlen]
  have hfa := hweight a fa hma
  have hfb := hweight b fb hmb
  have hmono := depth_antitone root hex hord (code_bits ca).length (code_bits ca) (code_bits cb)
    rfl (by rw [hdb]; simp) (by rw [hda]; simp)
    (by rw [hda, hdb]; show fb < fa; omega)
  rw [code_bits_length, code_bits_length] at hmono
  exact hmono

set_option maxRecDepth 100000 in
/-- C17 at the buffer `[65, 66, 66, 67, 67, 67, 67]`: the byte 67 occurs more often than the
byte 65. -/
theorem frequent_symbols_get_shorter_codes_witness :
    (∀ x ∈ [65, 66, 66, 67, 67, 67, 67], x < 256) ∧
    [65, 66, 66, 67, 67, 67, 67].length < UNSIGNED_MOD ∧
    67 ∈ [65, 66, 66, 67, 67, 67, 67] ∧ 65 ∈ [65, 66, 66, 67, 67, 67, 67] ∧
    [65, 66, 66, 67, 67, 67, 67].count 65 < [65, 66, 66, 67, 67, 67, 67].count 67 ∧
    ∃ ca cb, code_of [65, 66, 66, 67, 67, 67, 67] 67 = some ca ∧
      code_of [65, 66, 66, 67, 67, 67, 67] 65 = some cb ∧ ca.length ≤ cb.length :=
  ⟨by decide, by decide, by decide, by decide, by decide,
    frequent_symbols_get_shorter_codes [65, 66, 66, 67, 67, 67, 67] (by decide) (by decide)
      67 65 (by decide) (by decide) (by decide)⟩

/-! ### Recorded paths for any buffer length (C13) -/

/-- With a buffer of `BUFFER_SIZE` characters `generate_codes_in` is `generate_codes`. -/
theorem generate_codes_in_buffer_size (t : HuffmanNode) :
    ∀ codes buffer depth,
      generate_codes_in BUFFER_SIZE t codes buffer depth = generate_codes t codes buffer depth := by
  induction t with
  | null => intro codes buffer depth; rfl
  | node d f l r ihl ihr =>
    intro codes buffer depth
    have hs : ∀ b : Nat → Char, strdup_in BUFFER_SIZE b = strdup b := fun _ => rfl
    rw [generate_codes_in, generate_codes]
    simp only [ihl, ihr, hs]

theorem strdup_in_eq (size : Nat) (buffer : Nat → Char) (depth : Nat) (pre : List Char)
    (hpre : (List.range depth).map buffer = pre) (hnul : buffer depth = NUL)
    (hd : depth < size) (hc : ∀ c ∈ pre, c ≠ NUL) : strdup_in size buffer = pre := by
  unfold strdup_in
  obtain ⟨k, hk⟩ : ∃ k, size = depth + (k + 1) := ⟨size - depth - 1, by omega⟩
  rw [hk, List.range_add, List.map_append, hpre, List.range_succ_eq_map]
  rw [List.takeWhile_append_of_pos (by simpa using hc)]
  simp [hnul]

/-- Called with the path so far in `buffer[0 .. depth)`, `generate_codes_in` records for
every leaf below the node that path followed by the path from the node, provided the buffer
of the caller has room for the deepest leaf and its terminator. -/
theorem generate_codes_in_spec (size : Nat) (t : HuffmanNode) :
    ∀ codes buffer depth pre, (List.range depth).map buffer = pre →
      (∀ c ∈ pre, c ≠ NUL) → depth + levels t ≤ size →
      ∃ buffer', generate_codes_in size t codes buffer depth =
          .ok (record pre codes (paths t), buffer') ∧
        (List.range depth).map buffer' = pre := by
  induction t with
  | null =>
    intro codes buffer depth pre hpre _ _
    exact ⟨buffer, rfl, hpre⟩
  | node d f l r ihl ihr =>
    intro codes buffer depth pre hpre hc hlev
    simp only [levels] at hlev
    have hd : depth < size := by omega
    rw [generate_codes_in]
    simp only [hd, if_true, paths]
    split
    · refine ⟨poke buffer depth NUL, ?_, ?_⟩
      · have : strdup_in size (poke buffer depth NUL) = pre := by
          apply strdup_in_eq size _ depth pre _ _ hd hc
          · rw [prefix_poke]; exact hpre
          · simp [poke]
        rw [this]
        simp [record]
      · rw [prefix_poke]; exact hpre
    · have h0 : ∀ c ∈ pre ++ ['0'], c ≠ NUL := by
        intro c hc'
        rcases List.mem_append.1 hc' with h | h
        · exact hc c h
        · simp at h; subst h; decide
      have h1 : ∀ c ∈ pre ++ ['1'], c ≠ NUL := by
        intro c hc'
        rcases List.mem_append.1 hc' with h | h
        · exact hc c h
        · simp at h; subst h; decide
      obtain ⟨b1, he1, hp1⟩ := ihl codes (poke buffer depth '0') (depth + 1) (pre ++ ['0'])
        (by rw [prefix_poke_succ, hpre]) h0 (by omega)
      have hp1' := prefix_of_succ b1 depth pre '0' hp1
      obtain ⟨b2, he2, hp2⟩ := ihr (record (pre ++ ['0']) codes (paths l))
        (poke b1 depth '1') (depth + 1) (pre ++ ['1'])
        (by rw [prefix_poke_succ, hp1']) h1 (by omega)
      refine ⟨b2, ?_, prefix_of_succ b2 depth pre '1' hp2⟩
      rw [he1]
      simp only []
      rw [he2, record_append, record_map, record_map]

/-- For a tree with pairwise distinct leaves, the table that assigns the paths of the tree
holds for each leaf its own path, with length the depth of the leaf, and is unchanged at
every byte value that is not a leaf. -/
theorem record_distinct_leaves (t : HuffmanNode) (codes : Nat → Option (List Char))
    (hnd : (leaves t).Nodup) :
    (∀ d p, (d, p) ∈ paths t → record [] codes (paths t) d = some p) ∧
    (∀ d k, (d, k) ∈ leaf_depths t 0 →
      ∃ p, record [] codes (paths t) d = some p ∧ p.length = k) ∧
    (∀ d, d ∉ leaves t → record [] codes (paths t) d = codes d) := by
  have hpath : ∀ d p, (d, p) ∈ paths t → record [] codes (paths t) d = some p := by
    intro d p hp
    have hd : d ∈ (paths t).map Prod.fst := List.mem_map.2 ⟨(d, p), hp, rfl⟩
    obtain ⟨p', hp', hr⟩ := record_assigned [] codes (paths t) d hd
    have hmap : ((paths t).map Prod.fst).Nodup := by rw [paths_fst]; exact hnd
    have hinj : (d, p') = (d, p) := List.inj_on_of_nodup_map hmap hp' hp rfl
    injection hinj with _ h2
    rw [hr, List.nil_append, h2]
  refine ⟨hpath, ?_, ?_⟩
  · intro d k hdk
    rw [leaf_depths_paths, List.mem_map] at hdk
    obtain ⟨x, hx, hxe⟩ := hdk
    injection hxe with h1 h2
    subst h1
    exact ⟨x.2, hpath x.1 x.2 hx, by omega⟩
  · intro d hd
    rcases record_lookup [] (paths t) codes d with h | ⟨p, hp, _⟩
    · exact h
    · exfalso
      apply hd
      rw [← paths_fst]
      exact List.mem_map.2 ⟨(d, p), hp, rfl⟩

theorem two_children_full (t : HuffmanNode) (hne : t ≠ null) (h : two_children t) :
    full t := by
  induction t with
  | null => exact absurd rfl hne
  | node d f l r ihl ihr =>
    have hroot := h (node d f l r) (List.mem_cons_self _ _)
    rcases hroot with hleaf | ⟨hl, hr⟩
    · exact Or.inl hleaf
    · right
      constructor
      · apply ihl hl
        intro n hn
        exact h n (List.mem_cons_of_mem _ (List.mem_append_left _ hn))
      · apply ihr hr
        intro n hn
        exact h n (List.mem_cons_of_mem _ (List.mem_append_right _ hn))

theorem distinct_bytes_length (l : List Nat) (hnd : l.Nodup) (hb : ∀ d ∈ l, d < 256) :
    l.length ≤ 256 := by
  have hsub : l ⊆ List.range 256 := by
    intro d hd
    exact List.mem_range.2 (hb d hd)
  have := (List.subperm_of_subset hnd hsub).length_le
  rw [List.length_range] at this
  exact this

/-- A tree in which no node has exactly one child and whose leaves carry pairwise distinct
byte values has at most 256 levels. -/
theorem two_children_levels (t : HuffmanNode) (h2 : two_children t) (hnd : (leaves t).Nodup)
    (hb : ∀ d ∈ leaves t, d < 256) : levels t ≤ BUFFER_SIZE := by
  by_cases hne : t = null
  · subst hne
    exact Nat.zero_le _
  · have hf := two_children_full t hne h2
    have h1 := (full_levels t hf).2
    have h3 := distinct_bytes_length (leaves t) hnd hb
    unfold BUFFER_SIZE
    omega

/-- C13. For every tree whose leaves carry pairwise distinct byte values, `generate_codes`
called with depth 0 records for each leaf the string of its root-to-leaf path, with `'0'`
for each left descent and `'1'` for each right descent, so the length of the code of a byte
value is the depth of its leaf; the entries of byte values that are not leaves are left as
they were on entry, unassigned when the table starts empty. This holds for every tree
whenever the buffer of the caller has room for the deepest leaf and its terminator, and with
the 256-character buffer of `compress_file` for every tree in which no node has exactly one
child. -/
theorem generate_codes_records_paths :
    (∀ (size : Nat) (t : HuffmanNode) (codes : Nat → Option (List Char)) (buffer : Nat → Char),
      (leaves t).Nodup → levels t ≤ size →
      ∃ codes' buffer', generate_codes_in size t codes buffer 0 = .ok (codes', buffer') ∧
        (∀ d p, (d, p) ∈ paths t → codes' d = some p) ∧
        (∀ d k, (d, k) ∈ leaf_depths t 0 → ∃ p, codes' d = some p ∧ p.length = k) ∧
        (∀ d, d ∉ leaves t → codes' d = codes d)) ∧
    (∀ (t : HuffmanNode) (codes : Nat → Option (List Char)) (buffer : Nat → Char),
      (leaves t).Nodup → (∀ d ∈ leaves t, d < 256) → two_children t →
      ∃ codes' buffer', generate_codes t codes buffer 0 = .ok (codes', buffer') ∧
        (∀ d p, (d, p) ∈ paths t → codes' d = some p) ∧
        (∀ d k, (d, k) ∈ leaf_depths t 0 → ∃ p, codes' d = some p ∧ p.length = k) ∧
        (∀ d, d ∉ leaves t → codes' d = codes d)) := by
  have part1 : ∀ (size : Nat) (t : HuffmanNode) (codes : Nat → Option (List Char))
      (buffer : Nat → Char), (leaves t).Nodup → levels t ≤ size →
      ∃ codes' buffer', generate_codes_in size t codes buffer 0 = .ok (codes', buffer') ∧
        (∀ d p, (d, p) ∈ paths t → codes' d = some p) ∧
        (∀ d k, (d, k) ∈ leaf_depths t 0 → ∃ p, codes' d = some p ∧ p.length = k) ∧
        (∀ d, d ∉ leaves t → codes' d = codes d) := by
    intro size t codes buffer hnd hlev
    obtain ⟨buffer', he, _⟩ :=
      generate_codes_in_spec size t codes buffer 0 [] rfl (by simp) (by omega)
    exact ⟨_, buffer', he, record_distinct_leaves t codes hnd⟩
  refine ⟨part1, ?_⟩
  intro t codes buffer hnd hb h2
  have hlev := two_children_levels t h2 hnd hb
  obtain ⟨codes', buffer', he, hrest⟩ := part1 BUFFER_SIZE t codes buffer hnd hlev
  rw [generate_codes_in_buffer_size] at he
  exact ⟨codes', buffer', he, hrest⟩

set_option maxRecDepth 100000 in
/-- C13 at the one-child chain `left_chain 256` with a buffer of 300 characters, and at the
tree with a left leaf 65 and a right leaf 66 with the buffer of `compress_file`. -/
theorem generate_codes_records_paths_witness :
    ((leaves (left_chain 256)).Nodup ∧ levels (left_chain 256) ≤ 300 ∧
      ∃ codes' buffer', generate_codes_in 300 (left_chain 256) (fun _ => none)
          (fun _ => NUL) 0 = .ok (codes', buffer') ∧
        (∀ d p, (d, p) ∈ paths (left_chain 256) → codes' d = some p) ∧
        (∀ d k, (d, k) ∈ leaf_depths (left_chain 256) 0 →
          ∃ p, codes' d = some p ∧ p.length = k) ∧
        (∀ d, d ∉ leaves (left_chain 256) → codes' d = (fun _ => none) d)) ∧
    ((leaves (node 0 2 (node 65 1 null null) (node 66 1 null null))).Nodup ∧
      (∀ d ∈ leaves (node 0 2 (node 65 1 null null) (node 66 1 null null)), d < 256) ∧
      two_children (node 0 2 (node 65 1 null null) (node 66 1 null null)) ∧
      ∃ codes' buffer', generate_codes (node 0 2 (node 65 1 null null) (node 66 1 null null))
          (fun _ => none) (fun _ => NUL) 0 = .ok (codes', buffer') ∧
        (∀ d p, (d, p) ∈ paths (node 0 2 (node 65 1 null null) (node 66 1 null null)) →
          codes' d = some p) ∧
        (∀ d k,
          (d, k) ∈ leaf_depths (node 0 2 (node 65 1 null null) (node 66 1 null null)) 0 →
          ∃ p, codes' d = some p ∧ p.length = k) ∧
        (∀ d, d ∉ leaves (node 0 2 (node 65 1 null null) (node 66 1 null null)) →
          codes' d = (fun _ => none) d)) :=
  ⟨⟨by decide, by decide,
      generate_codes_records_paths.1 300 (left_chain 256) (fun _ => none) (fun _ => NUL)
        (by decide) (by decide)⟩,
    ⟨by decide, by decide, by decide,
      generate_codes_records_paths.2 (node 0 2 (node 65 1 null null) (node 66 1 null null))
        (fun _ => none) (fun _ => NUL) (by decide) (by decide) (by decide)⟩⟩

end Huffman
